import Mathlib

/-!
# Verification of the aicommits message-generation pipeline

A shallow embedding, in Lean 4, of the core functions of the aicommits
repository: the prompt catalog (`src/utils/prompt.ts`), the message
sanitizer, conventional-commit post-processing, locale enforcement,
scope-enforcement retry and stream reassembly (`src/utils/openai.ts`),
and the conventional-type judge/classifier (the earlier generation of
`openai.ts` kept in the repository).

Modelling conventions:
* JavaScript strings are Lean `String`s; the string-walking regex
  operations of the source are re-implemented as explicit `List Char`
  matchers that follow each concrete regex of the source.
* JavaScript numbers are modelled as `ℚ` (exact arithmetic); `NaN` and
  non-finite results are modelled with `Option`.
* `JSON.parse` is a black-box builtin: functions that call it take a
  `jsonParse : String → Option JsValue` argument (`none` = throw), and
  `String(v)` / `JSON.stringify` are modelled by explicit functions
  (numeric formatting approximated; no claim depends on it).
* Network calls are oracles: the completion responses and the
  locale-rewrite outcomes are inputs of the embedded functions
  (`Except Unit _` models a thrown exception).
-/

namespace Aicommits

/-! ## JavaScript string builtins -/

/-- The whitespace class used by `trim` and `\s` (ASCII part; the rare
Unicode space characters are not modelled). -/
def jsWhitespaceB (c : Char) : Bool :=
  c = ' ' || c = '\t' || c = '\n' || c = '\r' || c = '\x0b' || c = '\x0c'

/-- `String.prototype.trim` on a character list. -/
def trimChars (l : List Char) : List Char :=
  ((l.dropWhile jsWhitespaceB).reverse.dropWhile jsWhitespaceB).reverse

/-- `String.prototype.trim`. -/
def jsTrim (s : String) : String :=
  (trimChars s.toList).asString

/-- JavaScript `\w` (no `u` flag): `[A-Za-z0-9_]`. -/
def isWordCharB (c : Char) : Bool :=
  ('a' ≤ c && c ≤ 'z') || ('A' ≤ c && c ≤ 'Z') || ('0' ≤ c && c ≤ '9') || c = '_'

/-- `[a-z]` with the `i` flag: an ASCII letter. -/
def isAsciiLetterB (c : Char) : Bool :=
  ('a' ≤ c && c ≤ 'z') || ('A' ≤ c && c ≤ 'Z')

/-- An ASCII digit, `\d` without the `u` flag. -/
def isDigitB (c : Char) : Bool :=
  '0' ≤ c && c ≤ '9'

/-- The three quote characters stripped from a title's ends:
`"`, `'` and the backtick. -/
def isWrapQuote (c : Char) : Bool :=
  c = '\x22' || c = '\x27' || c = '\x60'

/-- Split a character list at every occurrence of one character(JS
`split(sep)` semantics: an empty input gives `[[]]`). -/
def splitOnChar (sep : Char) : List Char → List (List Char)
  | [] => [[]]
  | c :: rest =>
    let r := splitOnChar sep rest
    if c = sep then [] :: r
    else
      match r with
      | h :: t => (c :: h) :: t
      | [] => [[c]]

/-- Case-insensitive match of a (lowercase) pattern at the front of a list;
returns the remainder on success. -/
def matchCI : List Char → List Char → Option (List Char)
  | [], l => some l
  | _ :: _, [] => none
  | p :: ps, c :: cs => if c.toLower = p then matchCI ps cs else none

/-- Exact-prefix containment of `needle` anywhere in `hay`. -/
def containsSeq (needle : List Char) : List Char → Bool
  | [] => needle.isPrefixOf []
  | c :: rest => needle.isPrefixOf (c :: rest) || containsSeq needle rest

/-- A word-boundary (`\b`) delimited occurrence of `w` (a `\w`-only word)
inside `hay`: the character before the match (if any) and the character
after it (if any) are not word characters. -/
def containsWordAux (w : List Char) (hay : List Char) (prevIsWord : Bool) : Bool :=
  (!prevIsWord && w.isPrefixOf hay &&
    (match hay.drop w.length with
     | [] => true
     | c :: _ => !isWordCharB c)) ||
  (match hay with
   | [] => false
   | c :: rest => containsWordAux w rest (isWordCharB c))

/-- `\bw\b` matched anywhere in the string. -/
def containsWord (w : String) (hay : List Char) : Bool :=
  containsWordAux w.toList hay false

/-- Substring containment at the string level. -/
def containsSubstr (needle : String) (hay : List Char) : Bool :=
  containsSeq needle.toList hay

/-- `String.prototype.toLowerCase` (ASCII case mapping via
`Char.toLower`). -/
def jsToLower (s : String) : String :=
  (s.toList.map Char.toLower).asString

/-- `value.trim().toLowerCase()` — `normalizeKey` of the source. -/
def normalizeKey (value : String) : String :=
  jsToLower (jsTrim value)

/-- JS `Map.set` on an association list: an existing key keeps its
position and takes the new value, a new key is appended. -/
def jsMapSet {κ β : Type} [DecidableEq κ] : List (κ × β) → κ → β → List (κ × β)
  | [], k, v => [(k, v)]
  | (k', v') :: rest, k, v =>
    if k' = k then (k', v) :: rest else (k', v') :: jsMapSet rest k v

/-- JS `Map.get` on an association list. -/
def jsMapGet {κ β : Type} [DecidableEq κ] : List (κ × β) → κ → Option β
  | [], _ => none
  | (k', v') :: rest, k => if k' = k then some v' else jsMapGet rest k

/-- `Array.from(new Set(array))`: deduplication that keeps the first
occurrence of every element, in order. -/
def dedupFirstAux (seen : List String) : List String → List String
  | [] => []
  | x :: xs => if x ∈ seen then dedupFirstAux seen xs else x :: dedupFirstAux (x :: seen) xs

/-- `deduplicateMessages` of the source: `Array.from(new Set(array))`. -/
def deduplicateMessages (array : List String) : List String :=
  dedupFirstAux [] array

/-- Stable insertion (before the first element `b` with `le a b`),
modelling the placement done by a stable comparison sort. -/
def jsOrderedInsert {α : Type} (le : α → α → Bool) (a : α) : List α → List α
  | [] => [a]
  | b :: l => if le a b then a :: b :: l else b :: jsOrderedInsert le a l

/-- `Array.prototype.sort(cmp)` modelled as the stable insertion sort
under `le a b := cmp a b ≤ 0` (V8's sort is stable; for a consistent
comparator this is its result). -/
def jsSortBy {α : Type} (le : α → α → Bool) : List α → List α
  | [] => []
  | a :: l => jsOrderedInsert le a (jsSortBy le l)

/-! ## JSON values and dynamic-typing builtins -/

/-- The values `JSON.parse` can produce (JS numbers as `ℚ`). -/
inductive JsValue where
  | null : JsValue
  | bool : Bool → JsValue
  | num : ℚ → JsValue
  | str : String → JsValue
  | arr : List JsValue → JsValue
  | obj : List (String × JsValue) → JsValue

/-- Property access `record[key]` on an object value. -/
def jsGetField : JsValue → String → Option JsValue
  | .obj fields, key => jsMapGet fields key
  | _, _ => none

/-- Whether `key in record` holds for an object value. -/
def jsHasField (v : JsValue) (key : String) : Bool :=
  (jsGetField v key).isSome

/-- Decimal rendering of a JS number (integers exact; non-integers
approximated as `num/den`, which no claim exercises). -/
def jsStringOfNum (q : ℚ) : String :=
  if q.den = 1 then toString q.num else toString q.num ++ "/" ++ toString q.den

mutual

/-- `String(value)`: the JS string coercion (array elements joined with
commas; `null` inside a join renders empty). -/
def jsToStringValue : JsValue → String
  | .null => "null"
  | .bool b => if b then "true" else "false"
  | .num q => jsStringOfNum q
  | .str s => s
  | .arr xs => jsArrToString xs
  | .obj _ => "[object Object]"

def jsArrToString : List JsValue → String
  | [] => ""
  | [x] => jsArrElemToString x
  | x :: y :: rest => jsArrElemToString x ++ "," ++ jsArrToString (y :: rest)

/-- An array element inside a join (`null` renders empty). -/
def jsArrElemToString : JsValue → String
  | .null => ""
  | .bool b => if b then "true" else "false"
  | .num q => jsStringOfNum q
  | .str s => s
  | .arr xs => jsArrToString xs
  | .obj _ => "[object Object]"

end

/-- `Number(string)` restricted to finite results: a decimal literal with
optional sign and fraction; blank coerces to `0`; anything else is
`NaN`/non-finite and becomes `none`. -/
def jsNumOfTrimmed : List Char → Option ℚ
  | [] => some 0
  | l =>
    let (sign, digitsPart) : ℚ × List Char :=
      match l with
      | '-' :: rest => (-1, rest)
      | '+' :: rest => (1, rest)
      | rest => (1, rest)
    let intDigits := digitsPart.takeWhile isDigitB
    let afterInt := digitsPart.dropWhile isDigitB
    let readNat : List Char → ℕ := fun ds => ds.foldl (fun acc c => acc * 10 + (c.toNat - '0'.toNat)) 0
    match afterInt with
    | [] =>
      if intDigits.isEmpty then none
      else some (sign * (readNat intDigits : ℚ))
    | '.' :: fracPart =>
      let fracDigits := fracPart.takeWhile isDigitB
      if fracPart.dropWhile isDigitB ≠ [] then none
      else if intDigits.isEmpty && fracDigits.isEmpty then none
      else some (sign * ((readNat intDigits : ℚ) + (readNat fracDigits : ℚ) / (10 ^ fracDigits.length : ℚ)))
    | _ => none

/-- `Number(value)` restricted to finite results (`none` = `NaN` or
infinite; object/array coercion approximated as `NaN` apart from `[]`). -/
def jsNumberOfValue : JsValue → Option ℚ
  | .null => some 0
  | .bool b => some (if b then 1 else 0)
  | .num q => some q
  | .str s => jsNumOfTrimmed (trimChars s.toList)
  | .arr [] => some 0
  | .arr (_ :: _) => none
  | .obj _ => none

mutual

/-- `JSON.stringify` (string escaping not modelled; no claim depends on
this function). -/
def jsonStringify : JsValue → String
  | .null => "null"
  | .bool b => if b then "true" else "false"
  | .num q => jsStringOfNum q
  | .str s => "\x22" ++ s ++ "\x22"
  | .arr xs => "[" ++ jsonStringifyArr xs ++ "]"
  | .obj fields => "\x7b" ++ jsonStringifyObj fields ++ "\x7d"

def jsonStringifyArr : List JsValue → String
  | [] => ""
  | [x] => jsonStringify x
  | x :: y :: rest => jsonStringify x ++ "," ++ jsonStringifyArr (y :: rest)

def jsonStringifyObj : List (String × JsValue) → String
  | [] => ""
  | [(k, v)] => "\x22" ++ k ++ "\x22:" ++ jsonStringify v
  | (k, v) :: f :: rest => "\x22" ++ k ++ "\x22:" ++ jsonStringify v ++ "," ++ jsonStringifyObj (f :: rest)

end

/-- `Object.fromEntries`: duplicate keys keep the first position and the
last value. -/
def jsFromEntries (entries : List (String × String)) : List (String × String) :=
  entries.foldl (fun m kv => jsMapSet m kv.1 kv.2) []

/-! ## `src/utils/prompt.ts`: the conventional-type catalog -/

/-- `defaultConventionalTypeDescriptions` of `prompt.ts`, verbatim. -/
def defaultConventionalTypeDescriptions : List (String × String) :=
  [ ("docs", "Documentation only changes"),
    ("style", "Changes that do not affect the meaning of the code (white-space, formatting, missing semi-colons, etc)"),
    ("refactor", "A code change that improves code structure without changing functionality (renaming, restructuring classes/methods, extracting functions, etc)"),
    ("perf", "A code change focused only on performance improvements, with no functional behavior fix and no structural refactor as the primary purpose"),
    ("test", "Adding missing tests or correcting existing tests"),
    ("build", "Changes that affect the build system or external dependencies"),
    ("ci", "Changes to our CI configuration files and scripts"),
    ("chore", "Other changes that don\x27t modify src or test files"),
    ("revert", "Reverts a previous commit"),
    ("feat", "A new feature"),
    ("fix", "A bug fix that corrects incorrect behavior, crashes, exceptions, regressions, or other defects") ]

/-- `parseConventionalTypes` of `prompt.ts`. The raw config string is
`Option String` (`none` = `undefined`) and `JSON.parse` is the supplied
`jsonParse` oracle (`none` = throw, caught by the source). -/
def parseConventionalTypes (jsonParse : String → Option JsValue)
    (rawConventionalTypes : Option String) : List (String × String) :=
  match rawConventionalTypes with
  | none => defaultConventionalTypeDescriptions
  | some raw =>
    if raw = "" then defaultConventionalTypeDescriptions
    else
      match jsonParse raw with
      | none => defaultConventionalTypeDescriptions
      | some parsed =>
        match parsed with
        | .obj fields =>
          let entries := (fields.map (fun kv => (jsTrim kv.1, jsTrim (jsToStringValue kv.2)))).filter
            (fun kv => kv.1.length > 0 && kv.2.length > 0)
          if entries.isEmpty then defaultConventionalTypeDescriptions
          else jsFromEntries entries
        | _ => defaultConventionalTypeDescriptions

/-! ## `src/utils/openai.ts`: the message sanitizer -/

/-- `normalizeLineEndings`: `text.replace(/\r\n?/g, '\n')`. -/
def normalizeLineEndingsChars : List Char → List Char
  | [] => []
  | '\r' :: '\n' :: rest => '\n' :: normalizeLineEndingsChars rest
  | '\r' :: rest => '\n' :: normalizeLineEndingsChars rest
  | c :: rest => c :: normalizeLineEndingsChars rest

/-- `[\w-]`, the code-fence language class. -/
def isWordDashB (c : Char) : Bool :=
  isWordCharB c || c = '-'

/-- The characters before the first occurrence of three backticks
(`none` when there is none): the lazy `([\s\S]*?)` body of the
fence regex. -/
def takeUntilFence : List Char → Option (List Char)
  | [] => none
  | '\x60' :: '\x60' :: '\x60' :: _ => some []
  | c :: rest => (takeUntilFence rest).map (fun l => c :: l)

/-- Try the fence regex ```` /```[\w-]*\n([\s\S]*?)``` ```` anchored at the
head of the list, returning the captured body. -/
def tryFenceAt : List Char → Option (List Char)
  | '\x60' :: '\x60' :: '\x60' :: rest =>
    match rest.dropWhile isWordDashB with
    | '\n' :: body => takeUntilFence body
    | _ => none
  | _ => none

/-- The first position where the fence regex matches, scanning left to
right. -/
def findFencedContent : List Char → Option (List Char)
  | [] => none
  | c :: rest =>
    match tryFenceAt (c :: rest) with
    | some content => some content
    | none => findFencedContent rest

/-- `text.replace(/```/g, '')`. -/
def removeFenceMarks : List Char → List Char
  | [] => []
  | '\x60' :: '\x60' :: '\x60' :: rest => removeFenceMarks rest
  | c :: rest => c :: removeFenceMarks rest

/-- `stripCodeFences` of `openai.ts`: keep the first fenced block's body
when the capture is non-empty, else drop every ``` and trim. -/
def stripCodeFencesChars (l : List Char) : List Char :=
  match findFencedContent l with
  | some content =>
    if content.isEmpty then trimChars (removeFenceMarks l)
    else trimChars content
  | none => trimChars (removeFenceMarks l)

def stripCodeFences (s : String) : String :=
  (stripCodeFencesChars s.toList).asString

/-- `.replace(/^title:\s*/i, '')`. -/
def stripTitleLabel (l : List Char) : List Char :=
  match matchCI ['t', 'i', 't', 'l', 'e', ':'] l with
  | some rest => rest.dropWhile jsWhitespaceB
  | none => l

/-- `.replace(/(\w)\.$/, '$1')`: drop a trailing full stop after a word
character. -/
def stripTrailingDot (l : List Char) : List Char :=
  match l.reverse with
  | c1 :: w :: rest => if c1 = '.' && isWordCharB w then (w :: rest).reverse else l
  | _ => l

/-- `.replace(/^["'`]|["'`]$/g, '')`: drop one wrapping quote from each
end. -/
def stripWrapQuotes (l : List Char) : List Char :=
  let l1 :=
    match l with
    | c :: rest => if isWrapQuote c then rest else c :: rest
    | [] => []
  match l1.reverse with
  | c :: rest => if isWrapQuote c then rest.reverse else l1
  | [] => l1

/-- `sanitizeTitle` of `openai.ts`: trim, strip the `title:` label, the
trailing stop and one layer of wrapping quotes, in that order. -/
def sanitizeTitleChars (l : List Char) : List Char :=
  stripWrapQuotes (stripTrailingDot (stripTitleLabel (trimChars l)))

def sanitizeTitle (s : String) : String :=
  (sanitizeTitleChars s.toList).asString

/-- The first line taken by `sanitizeSimpleMessage`:
`stripCodeFences(message).trim().split('\n')[0] || ''`. -/
def sanitizeSimpleFirstLine (message : String) : List Char :=
  (splitOnChar '\n' (trimChars (stripCodeFencesChars message.toList))).headD []

/-- The intermediate value of `sanitizeTitle` just before the
wrapping-quote strip, applied to the sanitized first line. -/
def sanitizePreQuote (message : String) : List Char :=
  stripTrailingDot (stripTitleLabel (trimChars (sanitizeSimpleFirstLine message)))

/-- `sanitizeSimpleMessage` of `openai.ts`. -/
def sanitizeSimpleMessage (message : String) : String :=
  (sanitizeTitleChars (sanitizeSimpleFirstLine message)).asString

/-- One label alternative: optional leading whitespace, a keyword, optional
whitespace, a colon from `colons`, trailing whitespace — all removed. -/
def stripOneLabel (keyword : List Char) (ci : Bool) (colons : List Char) (l : List Char) : Option (List Char) :=
  let afterWs := l.dropWhile jsWhitespaceB
  let rest? := if ci then matchCI (keyword.map Char.toLower) afterWs
    else if keyword.isPrefixOf afterWs then some (afterWs.drop keyword.length) else none
  match rest? with
  | none => none
  | some rest =>
    match rest.dropWhile jsWhitespaceB with
    | c :: r => if colons.contains c then some (r.dropWhile jsWhitespaceB) else none
    | [] => none

/-- Try label keywords in order (regex alternation with backtracking). -/
def stripLabelAlts (keywords : List (List Char)) (ci : Bool) (colons : List Char) (l : List Char) : List Char :=
  match keywords with
  | [] => l
  | k :: ks =>
    match stripOneLabel k ci colons l with
    | some rest => rest
    | none => stripLabelAlts ks ci colons l

/-- `stripBodyLabels` of `openai.ts`: three chained label-stripping
replaces (English labels, Chinese labels, impact labels). -/
def stripBodyLabelsChars (l : List Char) : List Char :=
  let l1 := stripLabelAlts ["body".toList, "description".toList, "details".toList] true [':'] l
  let l2 := stripLabelAlts ["主要改动包括".toList, "主要改动".toList, "改动包括".toList] false [':', '：'] l1
  stripLabelAlts ["impact".toList, "影响".toList] true [':', '：'] l2

def stripBodyLabels (s : String) : String :=
  (stripBodyLabelsChars s.toList).asString

/-- Sentence-ending punctuation of `splitListFragments`. -/
def sentenceEndPunct (c : Char) : Bool :=
  c = '。' || c = '！' || c = '？' || c = '.' || c = '!' || c = '?'

/-- `dropWhile` never lengthens a list (needed for termination below). -/
theorem length_dropWhile_le (p : Char → Bool) (l : List Char) :
    (l.dropWhile p).length ≤ l.length := by
  induction l with
  | nil => simp [List.dropWhile]
  | cons c rest ih =>
    simp only [List.dropWhile]
    split
    · exact Nat.le_succ_of_le ih
    · simp

/-- Core of `line.split(/(?<=[。！？.!?])\s+/u)`: a whitespace run
preceded by sentence punctuation is a separator. -/
def splitFragmentsCore (cur : List Char) : List Char → List (List Char)
  | [] => [cur.reverse]
  | c :: rest =>
    if sentenceEndPunct c then
      match rest with
      | d :: rtail =>
        if jsWhitespaceB d then
          (c :: cur).reverse :: splitFragmentsCore [] (rtail.dropWhile jsWhitespaceB)
        else splitFragmentsCore (c :: cur) (d :: rtail)
      | [] => splitFragmentsCore (c :: cur) []
    else splitFragmentsCore (c :: cur) rest
  termination_by l => l.length
  decreasing_by
    all_goals simp_wf
    all_goals first
      | omega
      | exact Nat.lt_succ_of_le (Nat.le_succ_of_le (length_dropWhile_le _ _))

/-- `splitListFragments` of `openai.ts`. -/
def splitListFragments (line : String) : List String :=
  ((splitFragmentsCore [] line.toList).map (fun f => (trimChars f).asString)).filter (· ≠ "")

/-- `listMarkerPattern = /^(?:[-*•]+|\d+[.)])\s*/u` matched at the head;
returns the remainder after the marker and its trailing whitespace. -/
def matchListMarker (l : List Char) : Option (List Char) :=
  let isBulletMark : Char → Bool := fun c => c = '-' || c = '*' || c = '•'
  match l with
  | c :: _ =>
    if isBulletMark c then
      some ((l.dropWhile isBulletMark).dropWhile jsWhitespaceB)
    else
      let digits := l.takeWhile isDigitB
      if digits.isEmpty then none
      else
        match l.dropWhile isDigitB with
        | '.' :: rest => some (rest.dropWhile jsWhitespaceB)
        | ')' :: rest => some (rest.dropWhile jsWhitespaceB)
        | _ => none
  | [] => none

/-- `noiseOnlyPattern = /^[\s\-–—_*•.,;:!?()[\]{}"'`]+$/u`. -/
def isNoiseChar (c : Char) : Bool :=
  jsWhitespaceB c || c = '-' || c = '–' || c = '—' || c = '_' || c = '*' || c = '•' ||
  c = '.' || c = ',' || c = ';' || c = ':' || c = '!' || c = '?' ||
  c = '(' || c = ')' || c = '[' || c = ']' || c = '\x7b' || c = '\x7d' ||
  c = '\x22' || c = '\x27' || c = '\x60'

def isNoiseOnly (l : List Char) : Bool :=
  !l.isEmpty && l.all isNoiseChar

/-- The marker-stripping loop of `normalizeListItem`, with fuel (each
iteration strictly shortens the string). -/
def normalizeListItemLoop : Nat → List Char → List Char
  | 0, l => l
  | fuel + 1, l =>
    match matchListMarker l with
    | none => l
    | some rest =>
      let next := trimChars rest
      if next.isEmpty || next = l then l
      else normalizeListItemLoop fuel next

/-- `normalizeListItem` of `openai.ts`. -/
def normalizeListItem (item : String) : String :=
  let normalized := trimChars item.toList
  if normalized.isEmpty then ""
  else
    let result := normalizeListItemLoop (normalized.length + 1) normalized
    if result.isEmpty || isNoiseOnly result then "" else result.asString

/-- The `/^\d+[.)]\s+/` alternative of `parseLeadingBullet`: at least one
digit, a dot or closing parenthesis, at least one whitespace; returns the
trimmed remainder (`undefined` when empty). -/
def parseLeadingBulletNum (trimmed : List Char) : Option String :=
  let digits := trimmed.takeWhile isDigitB
  if digits.isEmpty then none
  else
    match trimmed.dropWhile isDigitB with
    | m :: rest =>
      if m = '.' || m = ')' then
        match rest with
        | w :: _ =>
          if jsWhitespaceB w then
            let r := trimChars (rest.dropWhile jsWhitespaceB)
            if r.isEmpty then none else some r.asString
          else none
        | [] => none
      else none
    | [] => none

/-- `parseLeadingBullet` of `openai.ts`. -/
def parseLeadingBullet (line : String) : Option String :=
  let trimmed := trimChars line.toList
  match trimmed with
  | [] => none
  | c :: ' ' :: rest =>
    if c = '-' || c = '*' || c = '•' then
      let r := trimChars rest
      if r.isEmpty then none else some r.asString
    else parseLeadingBulletNum trimmed
  | _ => parseLeadingBulletNum trimmed

/-- Collapse whitespace runs of length at least two into one space
(`.replace(/\s{2,}/g, ' ')`; a single whitespace character stays as is). -/
def collapseWhitespaceRuns : List Char → List Char
  | [] => []
  | c :: rest =>
    if jsWhitespaceB c then
      match rest with
      | d :: dtail =>
        if jsWhitespaceB d then ' ' :: collapseWhitespaceRuns (dtail.dropWhile jsWhitespaceB)
        else c :: collapseWhitespaceRuns (d :: dtail)
      | [] => [c]
    else c :: collapseWhitespaceRuns rest
  termination_by l => l.length
  decreasing_by
    all_goals simp_wf
    all_goals first
      | omega
      | exact Nat.lt_succ_of_le (Nat.le_succ_of_le (length_dropWhile_le _ _))

/-- The punctuation set of `.replace(/\s+([,.;:!?])/g, '$1')`. -/
def isTightPunct (c : Char) : Bool :=
  c = ',' || c = '.' || c = ';' || c = ':' || c = '!' || c = '?'

/-- Delete a whitespace run that is directly followed by tight
punctuation (`.replace(/\s+([,.;:!?])/g, '$1')`). -/
def dropSpaceBeforePunct : List Char → List Char
  | [] => []
  | c :: rest =>
    if jsWhitespaceB c then
      match hm : rest.dropWhile jsWhitespaceB with
      | d :: after =>
        if isTightPunct d then d :: dropSpaceBeforePunct after
        else c :: dropSpaceBeforePunct rest
      | [] => c :: rest
    else c :: dropSpaceBeforePunct rest
  termination_by l => l.length
  decreasing_by
    all_goals simp_wf
    all_goals first
      | omega
      | { have h1 := length_dropWhile_le jsWhitespaceB rest
          rw [hm] at h1
          simp at h1
          omega }

/-- The result record of `normalizeDetailedBody` in `openai.ts`
(paragraph text and deduplicated list items). -/
structure NormalizedBody where
  paragraph : String
  listItems : List String
deriving Repr, DecidableEq

/-- `normalizeDetailedBody` of `openai.ts`. -/
def normalizeDetailedBody (body : String) : NormalizedBody :=
  if (trimChars body.toList).isEmpty then ⟨"", []⟩
  else
    let lines := ((splitOnChar '\n' body.toList).map
      (fun line => stripBodyLabelsChars (trimChars line))).filter (fun l => !l.isEmpty)
    if lines.isEmpty then ⟨"", []⟩
    else
      let step := lines.foldl
        (fun (acc : List String × List String) line =>
          match parseLeadingBullet line.asString with
          | some bullet => (acc.1, acc.2 ++ [bullet])
          | none =>
            (acc.1 ++ [(trimChars line).asString],
             acc.2 ++ splitListFragments line.asString))
        ([], [])
      let proseLines := step.1
      let listItems := step.2
      let joined := String.intercalate " " (proseLines ++ listItems)
      let paragraph :=
        (trimChars (dropSpaceBeforePunct (collapseWhitespaceRuns joined.toList))).asString
      let dedupedListItems :=
        deduplicateMessages ((listItems.map normalizeListItem).filter (· ≠ ""))
      ⟨paragraph, dedupedListItems⟩

/-- Trailing-whitespace strip of one line (`line.replace(/\s+$/g, '')`). -/
def stripTrailingWs (l : List Char) : List Char :=
  (l.reverse.dropWhile jsWhitespaceB).reverse

/-- Strip `/^body:\s*/i` from a line. -/
def stripLeadingBodyLabel (l : List Char) : List Char :=
  match matchCI ['b', 'o', 'd', 'y', ':'] l with
  | some rest => rest.dropWhile jsWhitespaceB
  | none => l

/-- `splitCommitMessage` of `openai.ts`. -/
def splitCommitMessage (message : String) : String × String :=
  let normalized := trimChars (normalizeLineEndingsChars message.toList)
  if normalized.isEmpty then ("", "")
  else
    let lines := (splitOnChar '\n' normalized).map stripTrailingWs
    let lines := lines.dropWhile (fun l => (trimChars l).isEmpty)
    let title := (sanitizeTitleChars (lines.headD [])).asString
    let rest := (lines.drop 1).dropWhile (fun l => (trimChars l).isEmpty)
    let rest :=
      match rest with
      | first :: others =>
        if List.isPrefixOf "body:".toList ((trimChars first).map Char.toLower)
        then stripLeadingBodyLabel first :: others
        else first :: others
      | [] => []
    let body := (trimChars (List.intercalate ['\n'] rest)).asString
    (title, body)

/-- `formatCommitMessage` of `openai.ts`. -/
def formatCommitMessage (title body : String) : String :=
  if body = "" then title else title ++ "\n\n" ++ body

/-- The two body styles of the detailed sanitizer. -/
inductive DetailsStyle where
  | paragraph : DetailsStyle
  | list : DetailsStyle
deriving Repr, DecidableEq

/-- `sanitizeDetailedMessage` of `openai.ts`. -/
def sanitizeDetailedMessage (message : String) (detailsStyle : DetailsStyle) : String :=
  let cleaned := stripCodeFences message
  let tb := splitCommitMessage cleaned
  let normalizedBody := normalizeDetailedBody tb.2
  match detailsStyle with
  | .list =>
    let bodyAsList := String.intercalate "\n"
      ((normalizedBody.listItems.take 6).map (fun item => "- " ++ item))
    formatCommitMessage tb.1 bodyAsList
  | .paragraph => formatCommitMessage tb.1 normalizedBody.paragraph

/-- `sanitizeMessage` of `openai.ts`. -/
def sanitizeMessage (message : String) (includeDetails : Bool) (detailsStyle : DetailsStyle) : String :=
  if includeDetails then sanitizeDetailedMessage message detailsStyle
  else sanitizeSimpleMessage message

/-! ## `src/utils/openai.ts`: conventional-title helpers -/

/-- The optional-scope step of the conventional-title pattern
(`(\([^)]+\))?`): at an opening parenthesis, a non-empty run of
non-`)` characters closed by `)`; anywhere else the group is not taken. -/
def titleScopeStep : List Char → Option (Option (List Char) × List Char)
  | '(' :: r =>
    let inner := r.takeWhile (· ≠ ')')
    match r.dropWhile (· ≠ ')') with
    | ')' :: r2 => if inner.isEmpty then none else some (some ('(' :: inner ++ [')']), r2)
    | _ => none
  | rest => some (none, rest)

/-- The `: (.+)$` tail of the conventional-title pattern: a colon, one
space, then a non-empty remainder free of line terminators. -/
def titleSubjectStep : List Char → Option (List Char)
  | ':' :: ' ' :: subj =>
    if subj.isEmpty || subj.any (fun c => c = '\n' || c = '\r') then none
    else some subj
  | _ => none

/-- The triple captured by
`conventionalTitleTypeScopePattern = /^([a-z]+)(\([^)]+\))?: (.+)$/i`:
the raw type word, the optional scope (with its parentheses) and the raw
subject. The subject may not contain a line terminator (JS `.`), must be
non-empty, and the whole title must be consumed. -/
def matchTitleTypeScope (title : String) : Option (String × Option String × String) :=
  let ty := title.toList.takeWhile isAsciiLetterB
  if ty.isEmpty then none
  else
    match titleScopeStep (title.toList.dropWhile isAsciiLetterB) with
    | none => none
    | some (scope, rest) =>
      match titleSubjectStep rest with
      | none => none
      | some subj => some (ty.asString, scope.map List.asString, subj.asString)

/-- `conventionalTitlePrefixPattern = /^([a-z]+(?:\([^)]+\))?: )(.+)$/i`
captures the whole prefix (type, optional scope, colon-space) and the
subject; structurally the same match as `matchTitleTypeScope`. -/
def splitConventionalTitle (title : String) : String × String :=
  match matchTitleTypeScope title with
  | none => ("", jsTrim title)
  | some (ty, scope, subj) => (ty ++ scope.getD "" ++ ": ", jsTrim subj)

/-- `conventionalTypeAliasMap` of `openai.ts`. -/
def conventionalTypeAliasMap : List (String × String) :=
  [("feature", "feat"), ("features", "feat"), ("bug", "fix"),
   ("bugfix", "fix"), ("performance", "perf")]

/-- `createConventionalTypeLookup` of `openai.ts`: normalized keys map to
canonical type names of the parsed catalog, aliases added when absent. -/
def createConventionalTypeLookup (jsonParse : String → Option JsValue)
    (rawConventionalTypes : Option String) : List (String × String) :=
  let parsed := parseConventionalTypes jsonParse rawConventionalTypes
  let lookup := parsed.foldl (fun m kv => jsMapSet m (normalizeKey kv.1) kv.1) []
  conventionalTypeAliasMap.foldl
    (fun m av =>
      if (jsMapGet m (normalizeKey av.1)).isSome then m
      else
        match jsMapGet m (normalizeKey av.2) with
        | some mapped => jsMapSet m (normalizeKey av.1) mapped
        | none => m)
    lookup

/-- `resolveConventionalTypeToken` of `openai.ts`. -/
def resolveConventionalTypeToken (token : String) (lookup : List (String × String)) : Option String :=
  jsMapGet lookup (normalizeKey token)

/-- `conventionalLeadingTypePattern = /^([a-z]+)(?:\s+|[:-])/i` matched at
the head; returns the leading word and the remainder after the whole
match. -/
def matchLeadingType (l : List Char) : Option (String × List Char) :=
  let w := l.takeWhile isAsciiLetterB
  if w.isEmpty then none
  else
    match l.dropWhile isAsciiLetterB with
    | c :: rest =>
      if jsWhitespaceB c then some (w.asString, (c :: rest).dropWhile jsWhitespaceB)
      else if c = ':' || c = '-' then some (w.asString, rest)
      else none
    | [] => none

/-- `inferConventionalTypeFromSubject` of `openai.ts`. -/
def inferConventionalTypeFromSubject (subject : String) (lookup : List (String × String)) : Option String :=
  match matchLeadingType (trimChars subject.toList) with
  | none => none
  | some (w, _) => resolveConventionalTypeToken w lookup

/-- `stripLeadingTypeWord` of `openai.ts`. -/
def stripLeadingTypeWord (subject : String) (typeName : String)
    (lookup : List (String × String)) : String :=
  let trimmedSubject := trimChars subject.toList
  match matchLeadingType trimmedSubject with
  | none => subject
  | some (w, after) =>
    let stripped := (trimChars after).asString
    if stripped = "" then subject
    else
      match resolveConventionalTypeToken w lookup with
      | none => subject
      | some resolved =>
        if normalizeKey resolved ≠ normalizeKey typeName then subject
        else stripped

/-- `harmonizeConventionalTitle` of `openai.ts`. -/
def harmonizeConventionalTitle (title : String) (lookup : List (String × String)) : String :=
  match matchTitleTypeScope title with
  | none => title
  | some (rawType, rawScope, rawSubject) =>
    let subject := jsTrim rawSubject
    if subject = "" then title
    else
      let currentType := (resolveConventionalTypeToken rawType lookup).getD (jsToLower rawType)
      let inferredType := inferConventionalTypeFromSubject subject lookup
      let nextType := inferredType.getD currentType
      let nextSubject := stripLeadingTypeWord subject nextType lookup
      nextType ++ rawScope.getD "" ++ ": " ++ (if nextSubject = "" then subject else nextSubject)

/-- `harmonizeConventionalMessage` of `openai.ts`. -/
def harmonizeConventionalMessage (message : String) (includeDetails : Bool)
    (lookup : List (String × String)) : String :=
  let tb := if includeDetails then splitCommitMessage message else (jsTrim message, "")
  let harmonizedTitle := harmonizeConventionalTitle tb.1 lookup
  if includeDetails then formatCommitMessage harmonizedTitle tb.2 else harmonizedTitle

/-- `stripConventionalScopeFromMessage` of `openai.ts`: lowercase the type
and drop the scope from a `type(scope): subject` title; leave everything
else untouched. -/
def stripConventionalScopeFromMessage (message : String) (includeDetails : Bool) : String :=
  let tb := if includeDetails then splitCommitMessage message else (jsTrim message, "")
  match matchTitleTypeScope tb.1 with
  | none => message
  | some (rawType, _, rawSubject) =>
    let normalizedType := jsToLower (jsTrim rawType)
    let normalizedSubject := jsTrim rawSubject
    if normalizedType = "" || normalizedSubject = "" then message
    else
      let normalizedTitle := normalizedType ++ ": " ++ normalizedSubject
      if includeDetails then formatCommitMessage normalizedTitle tb.2 else normalizedTitle

/-- `conventionalScopedTitlePattern = /^[a-z]+\([^)\s][^)]*\):\s*\S/i`
tested against a title. -/
def hasScopedTitleForm (title : String) : Bool :=
  let l := title.toList
  let ty := l.takeWhile isAsciiLetterB
  if ty.isEmpty then false
  else
    match l.dropWhile isAsciiLetterB with
    | '(' :: c :: rest =>
      if c = ')' || jsWhitespaceB c then false
      else
        match rest.dropWhile (· ≠ ')') with
        | ')' :: ':' :: r2 => !(r2.dropWhile jsWhitespaceB).isEmpty
        | _ => false
    | _ => false

/-- `getMessageTitle` of `openai.ts`. -/
def getMessageTitle (message : String) (includeDetails : Bool) : String :=
  if includeDetails then (splitCommitMessage message).1 else jsTrim message

/-- `/<\s*scope\s*>/i` searched anywhere in the template. -/
def containsScopeToken : List Char → Bool
  | [] => false
  | c :: rest =>
    (c = '<' &&
      (match matchCI ['s', 'c', 'o', 'p', 'e'] (rest.dropWhile jsWhitespaceB) with
       | some r => ((r.dropWhile jsWhitespaceB).headD ' ') = '>'
       | none => false)) ||
    containsScopeToken rest

/-- `supportsConventionalScope` of `openai.ts`: a blank format supports a
scope; otherwise the template must contain `/<\s*scope\s*>/i`. -/
def supportsConventionalScope (conventionalFormat : Option String) : Bool :=
  match conventionalFormat with
  | none => true
  | some fmt =>
    if jsTrim fmt = "" then true
    else containsScopeToken fmt.toList

/-- `hasConventionalScope` of `openai.ts`. -/
def hasConventionalScope (message : String) (includeDetails : Bool) : Bool :=
  hasScopedTitleForm (getMessageTitle message includeDetails)

/-! ## `src/utils/openai.ts`: locale enforcement -/

/-- `chineseCharacterPattern = /[㐀-鿿]/`. -/
def isCJKChar (c : Char) : Bool :=
  0x3400 ≤ c.toNat && c.toNat ≤ 0x9FFF

/-- `isChineseLocale` of `openai.ts`. -/
def isChineseLocale (locale : String) : Bool :=
  let normalized := normalizeKey locale
  normalized = "cn" || List.isPrefixOf ['z', 'h'] normalized.toList

/-- `shouldRewriteTitleToLocale` of `openai.ts`. -/
def shouldRewriteTitleToLocale (title : String) (locale : String) : Bool :=
  if !isChineseLocale locale then false
  else
    let subject := (splitConventionalTitle title).2
    if subject.length = 0 then false
    else !subject.toList.any isCJKChar

/-- `rewriteTitleToLocale` of `openai.ts`, with the network's answer as an
oracle: `completionContent` is the first string `choices[i].message.content`
of the rewrite response (`none` when the response carried no string
content). -/
def rewriteTitleToLocale (title : String) (completionContent : Option String) : String :=
  let ps := splitConventionalTitle title
  match completionContent with
  | none => title
  | some rewritten =>
    let sanitized := sanitizeSimpleMessage rewritten
    if sanitized = "" then title
    else if ps.1 = "" then sanitized
    else
      let sanitizedSubject :=
        match matchTitleTypeScope sanitized with
        | some (_, _, subj) => jsTrim subj
        | none => jsTrim sanitized
      ps.1 ++ (if sanitizedSubject = "" then ps.2 else sanitizedSubject)

/-- `enforceTitleLocale` of `openai.ts`. The whole rewrite request is the
`rewriteOutcome` oracle: `Except.error ()` models a thrown request error
(caught by the source's `try/catch`), `Except.ok c` a response whose first
string content is `c`. -/
def enforceTitleLocale (message : String) (includeDetails : Bool) (locale : String)
    (rewriteOutcome : Except Unit (Option String)) : String :=
  let tb := if includeDetails then splitCommitMessage message else (jsTrim message, "")
  if !shouldRewriteTitleToLocale tb.1 locale then message
  else
    match rewriteOutcome with
    | .error _ => message
    | .ok content =>
      let rewrittenTitle := rewriteTitleToLocale tb.1 content
      if includeDetails then formatCommitMessage rewrittenTitle tb.2 else rewrittenTitle

/-! ## `src/utils/openai.ts`: `generateCommitMessage` -/

/-- The two commit-type modes (`commitTypes = ['', 'conventional']`). -/
inductive CommitType where
  | plain : CommitType
  | conventional : CommitType
deriving Repr, DecidableEq

/-- The option bag passed to `generateCommitMessage` (the fields the
embedded pipeline reads). -/
structure GenOptions where
  includeDetails : Option Bool := none
  detailsStyle : Option DetailsStyle := none
  instructions : Option String := none
  conventionalFormat : Option String := none
  conventionalTypes : Option String := none
  conventionalScope : Option Bool := none

/-- The network oracle: `completionContents instr i` is the list of
`choices[j].message.content` values (string contents as `some`) returned
by the `i`-th concurrent completion request issued with merged
instructions `instr`; `rewriteOutcome m` is the locale-rewrite request's
outcome for message `m`. -/
structure GenOracle where
  completionContents : String → Nat → List (Option String)
  rewriteOutcome : String → Except Unit (Option String)

/-- The instruction merge of `requestMessages`:
`[includeUser ? instructions?.trim() : '', extra?.trim()].filter(Boolean).join('\n')`. -/
def mergedInstructionsModel (userInstructions : Option String) (includeUser : Bool)
    (extra : Option String) : String :=
  String.intercalate "\n"
    (([if includeUser then (userInstructions.map jsTrim).getD "" else "",
       (extra.map jsTrim).getD ""].filter (· ≠ "")))

/-- The added hard-requirement instruction of the scope-enforcement
retry pass, verbatim from `generateCommitMessage`. -/
def hardScopeRequirementInstruction : String :=
  "Hard requirement for this run: use conventional title with non-empty scope exactly in \x22<type>(<scope>): <subject>\x22 format.\nDo not omit scope. Pick the strongest file/class/module anchor as scope."

/-- `Array.from({ length: Math.max(1, completions) }, () => createChatCompletion(...))`:
the per-pass list of completion responses, one entry per concurrent
request. -/
def passCompletionResponses (contents : Nat → List (Option String)) (completions : Int) :
    List (List (Option String)) :=
  (List.range (max 1 completions).toNat).map contents

/-- The per-pass message list of `requestMessages` before deduplication:
sanitize each string content, localize, harmonize (conventional mode),
strip scopes (when `conventionalScope === false`), drop blanks. -/
def requestMessagesPre (jsonParse : String → Option JsValue) (oracle : GenOracle)
    (opts : GenOptions) (ctype : CommitType) (locale : String) (completions : Int)
    (extraInstructions : Option String) (includeUserInstructions : Bool) : List String :=
  let includeDetails := opts.includeDetails.getD false
  let detailsStyle := opts.detailsStyle.getD .paragraph
  let lookup := createConventionalTypeLookup jsonParse opts.conventionalTypes
  let merged := mergedInstructionsModel opts.instructions includeUserInstructions extraInstructions
  let responses := passCompletionResponses (oracle.completionContents merged) completions
  let messages := (responses.flatten.filterMap
    (fun content? => content?.map (fun c => sanitizeMessage c includeDetails detailsStyle))).filter
    (· ≠ "")
  let localizedMessages := messages.map
    (fun m => enforceTitleLocale m includeDetails locale (oracle.rewriteOutcome m))
  let harmonizedMessages :=
    if ctype = .conventional then
      localizedMessages.map (fun m => harmonizeConventionalMessage m includeDetails lookup)
    else localizedMessages
  let scopeNormalizedMessages :=
    if ctype = .conventional && opts.conventionalScope = some false then
      harmonizedMessages.map (fun m => stripConventionalScopeFromMessage m includeDetails)
    else harmonizedMessages
  scopeNormalizedMessages.filter (· ≠ "")

/-- `requestMessages` of `generateCommitMessage`:
`deduplicateMessages(scopeNormalizedMessages.filter(Boolean))`. -/
def requestMessagesModel (jsonParse : String → Option JsValue) (oracle : GenOracle)
    (opts : GenOptions) (ctype : CommitType) (locale : String) (completions : Int)
    (extraInstructions : Option String) (includeUserInstructions : Bool) : List String :=
  deduplicateMessages
    (requestMessagesPre jsonParse oracle opts ctype locale completions
      extraInstructions includeUserInstructions)

/-- `generateCommitMessage` of `openai.ts` (the current generation): one
generation pass, then — when conventional scope enforcement is active —
a scope filter and at most one retry pass carrying the hard-requirement
instruction, whose unfiltered results are the fallback. -/
def generateCommitMessageModel (jsonParse : String → Option JsValue) (oracle : GenOracle)
    (locale : String) (completions : Int) (ctype : CommitType) (opts : GenOptions) : List String :=
  let includeDetails := opts.includeDetails.getD false
  let enforceConventionalScope :=
    ctype = .conventional && opts.conventionalScope.getD false &&
      supportsConventionalScope opts.conventionalFormat
  let firstPassMessages := requestMessagesModel jsonParse oracle opts ctype locale completions none true
  if !enforceConventionalScope then firstPassMessages
  else
    let firstPassScopedMessages := firstPassMessages.filter
      (fun m => hasConventionalScope m includeDetails)
    if !firstPassScopedMessages.isEmpty then firstPassScopedMessages
    else
      let secondPassMessages := requestMessagesModel jsonParse oracle opts ctype locale completions
        (some hardScopeRequirementInstruction) false
      let secondPassScopedMessages := secondPassMessages.filter
        (fun m => hasConventionalScope m includeDetails)
      if !secondPassScopedMessages.isEmpty then secondPassScopedMessages
      else secondPassMessages

/-! ## The conventional-type judge (the earlier `openai.ts` generation
kept in the repository) -/

namespace Judge

/-- `ScoreWeightCategory` of the judge. -/
inductive ScoreWeightCategory where
  | refactor : ScoreWeightCategory
  | feat : ScoreWeightCategory
  | fix : ScoreWeightCategory
  | perf : ScoreWeightCategory
  | other : ScoreWeightCategory
deriving Repr, DecidableEq

/-- `judgeTypeWeights`: the fixed category-weight table. -/
def judgeTypeWeights : ScoreWeightCategory → ℚ
  | .refactor => (1.10 : ℚ)
  | .feat => (1.00 : ℚ)
  | .fix => (0.80 : ℚ)
  | .perf => (0.75 : ℚ)
  | .other => (0.95 : ℚ)

/-- `scoreEpsilon = 1e-6`. -/
def scoreEpsilon : ℚ := 1 / 1000000

/-- The four model-reported fields of one scored type. -/
structure JudgeTypeScore where
  evidenceMatch : ℚ
  titleBodyConsistency : ℚ
  exclusivity : ℚ
  hardGatePass : Bool
deriving Repr, DecidableEq

/-- `ConventionalTypeScoreCandidate` of the judge. -/
structure Candidate where
  typeName : String
  weightCategory : ScoreWeightCategory
  evidenceMatch : ℚ
  titleBodyConsistency : ℚ
  exclusivity : ℚ
  hardGatePass : Bool
  modelHardGatePass : Bool
  weightedScore : ℚ
  baseScore : ℚ
  typeWeight : ℚ
deriving Repr, DecidableEq

/-- `clampScore0to10`: numeric coercion, `undefined` when not finite,
otherwise clamped into `[0, 10]`. -/
def clampScore0to10 (value : JsValue) : Option ℚ :=
  (jsNumberOfValue value).map (fun numeric => max 0 (min 10 numeric))

/-- `readNumberField`: first present key whose value clamps to a number. -/
def readNumberField (record : List (String × JsValue)) : List String → Option ℚ
  | [] => none
  | key :: keys =>
    match jsMapGet record key with
    | none => readNumberField record keys
    | some v =>
      match clampScore0to10 v with
      | some parsed => some parsed
      | none => readNumberField record keys

/-- `readBooleanField`: booleans verbatim; boolean-ish strings coerced. -/
def readBooleanField (record : List (String × JsValue)) : List String → Option Bool
  | [] => none
  | key :: keys =>
    match jsMapGet record key with
    | none => readBooleanField record keys
    | some (.bool b) => some b
    | some (.str s) =>
      let normalized := normalizeKey s
      if ["true", "yes", "1", "pass", "passed"].contains normalized then some true
      else if ["false", "no", "0", "fail", "failed"].contains normalized then some false
      else readBooleanField record keys
    | some _ => readBooleanField record keys

/-- `parseJudgeTypeScore`: the four fields under their accepted alternate
spellings; `undefined` when any is missing. -/
def parseJudgeTypeScore : JsValue → Option JudgeTypeScore
  | .obj fields =>
    match readNumberField fields ["evidenceMatch", "evidence", "evidenceScore", "evidence_score"],
      readNumberField fields
        ["titleBodyConsistency", "consistency", "title_body_consistency", "consistencyScore"],
      readNumberField fields ["exclusivity", "exclusive", "exclusivityScore", "exclusivity_score"],
      readBooleanField fields ["hardGatePass", "hardGate", "hard_gate_pass", "passesHardGate"] with
    | some evidenceMatch, some titleBodyConsistency, some exclusivity, some hardGatePass =>
      some ⟨evidenceMatch, titleBodyConsistency, exclusivity, hardGatePass⟩
    | _, _, _, _ => none
  | _ => none

/-- `inferScoreWeightCategory`: exact known names, else the bilingual
keyword heuristics over `name + " " + description` lowercased, else
`other`. -/
def inferScoreWeightCategory (typeName description : String) : ScoreWeightCategory :=
  let normalizedTypeName := normalizeKey typeName
  if normalizedTypeName = "refactor" then .refactor
  else if normalizedTypeName = "feat" || normalizedTypeName = "feature" then .feat
  else if normalizedTypeName = "fix" || normalizedTypeName = "bugfix" then .fix
  else if normalizedTypeName = "perf" || normalizedTypeName = "performance" then .perf
  else
    let text := (jsToLower (typeName ++ " " ++ description)).toList
    if containsWord "refactor" text || containsSubstr "重构" text || containsSubstr "重组" text ||
       containsSubstr "结构优化" text || containsSubstr "cleanup" text ||
       containsSubstr "clean up" text || containsSubstr "async" text ||
       containsSubstr "await" text then .refactor
    else if containsWord "feat" text || containsWord "feature" text || containsSubstr "新增" text ||
       containsSubstr "新功能" text || containsSubstr "引入" text then .feat
    else if containsWord "fix" text || containsWord "bug" text || containsSubstr "缺陷" text ||
       containsSubstr "错误" text || containsSubstr "崩溃" text || containsSubstr "异常" text ||
       containsSubstr "回归" text || containsSubstr "修复" text then .fix
    else if containsWord "perf" text || containsWord "performance" text ||
       containsSubstr "性能" text || containsSubstr "提速" text || containsSubstr "加速" text ||
       containsSubstr "吞吐" text || containsSubstr "延迟" text || containsSubstr "内存" text
    then .perf
    else .other

/-- Build the candidate record for one catalog entry from a parsed score
(the loop body of `getRankedTypesByJudgeScores`). -/
def mkCandidate (typeName description : String) (score : JudgeTypeScore) : Candidate :=
  let weightCategory := inferScoreWeightCategory typeName description
  let typeWeight := judgeTypeWeights weightCategory
  let modelHardGatePass := score.hardGatePass
  let hardGatePass :=
    if weightCategory = .fix || weightCategory = .perf then modelHardGatePass else true
  let baseScore := score.evidenceMatch * (0.55 : ℚ) + score.titleBodyConsistency * (0.30 : ℚ) +
    score.exclusivity * (0.15 : ℚ)
  let weightedScore := baseScore * typeWeight
  ⟨typeName, weightCategory, score.evidenceMatch, score.titleBodyConsistency, score.exclusivity,
    hardGatePass, modelHardGatePass, weightedScore, baseScore, typeWeight⟩

/-- The sort comparator of `getRankedTypesByJudgeScores`, returning the
JS comparator's number. -/
def judgeCompare (a b : Candidate) : ℚ :=
  if a.hardGatePass ≠ b.hardGatePass then (if a.hardGatePass then -1 else 1)
  else if b.weightedScore - a.weightedScore > scoreEpsilon then 1
  else if a.weightedScore - b.weightedScore > scoreEpsilon then -1
  else b.typeWeight - a.typeWeight

/-- `a` sorts no later than `b`: comparator value at most `0`. -/
def judgeLe (a b : Candidate) : Bool :=
  judgeCompare a b ≤ 0

/-- The `normalizedScoreMap` of `getRankedTypesByJudgeScores`: raw score
entries re-keyed by normalized type name. -/
def normalizeScoreMap (scoresByTypeRaw : List (String × JsValue)) : List (String × JsValue) :=
  scoresByTypeRaw.foldl (fun m kv => jsMapSet m (normalizeKey kv.1) kv.2) []

/-- The unsorted candidate list of `getRankedTypesByJudgeScores`: one
candidate per catalog entry whose raw score parses. -/
def buildCandidates (conventionalTypes : List (String × String))
    (scoresByTypeRaw : List (String × JsValue)) : List Candidate :=
  conventionalTypes.filterMap
    (fun td =>
      match (jsMapGet (normalizeScoreMap scoresByTypeRaw) (normalizeKey td.1)).bind
          parseJudgeTypeScore with
      | none => none
      | some score => some (mkCandidate td.1 td.2 score))

/-- `getRankedTypesByJudgeScores`: build the candidates, then sort with
the hard-gate/score/weight comparator. -/
def getRankedTypesByJudgeScores (conventionalTypes : List (String × String))
    (scoresByTypeRaw : List (String × JsValue)) : List Candidate :=
  jsSortBy judgeLe (buildCandidates conventionalTypes scoresByTypeRaw)

/-- `ConventionalTypeJudgeReport` (the `source` tag is irrelevant to the
claims and omitted). -/
structure JudgeReport where
  selectedType : Option String
  topCandidates : List Candidate
deriving Repr, DecidableEq

/-- A candidate whose category is neither `fix` nor `perf`. -/
def nonFixPerf (c : Candidate) : Bool :=
  !(c.weightCategory = .fix || c.weightCategory = .perf)

/-- `buildConventionalTypeJudgeReport`: selected type = first
gate-passing candidate, else first non-fix/non-perf candidate, else the
top-ranked candidate; top three retained. -/
def buildConventionalTypeJudgeReport (conventionalTypes : List (String × String))
    (scoresByTypeRaw : List (String × JsValue)) : JudgeReport :=
  let ranked := getRankedTypesByJudgeScores conventionalTypes scoresByTypeRaw
  let selected :=
    match ranked.find? (fun c => c.hardGatePass) with
    | some c => some c
    | none =>
      match ranked.find? nonFixPerf with
      | some c => some c
      | none => ranked.head?
  ⟨selected.map (fun c => c.typeName), ranked.take 3⟩

end Judge

/-! ## `src/utils/openai.ts`: streamed-response reassembly -/

/-- `data.split(/\r?\n/)` (realised as CRLF normalisation followed by an
LF split, which coincides with the regex split). -/
def dataLines (s : String) : List String :=
  (splitOnChar '\n' (normalizeCRLF s.toList)).map List.asString
where
  /-- Rewrite every CRLF pair to LF (lone CRs stay). -/
  normalizeCRLF : List Char → List Char
    | [] => []
    | '\r' :: '\n' :: rest => '\n' :: normalizeCRLF rest
    | c :: rest => c :: normalizeCRLF rest

/-- The `data:` payload of one SSE line (`none` when the trimmed line
does not start with `data:`). -/
def framePayload (rawLine : String) : Option String :=
  let line := jsTrim rawLine
  if List.isPrefixOf "data:".toList line.toList then some (jsTrim (line.drop 5)) else none

/-- The frame-collection loop: every `data:` line whose payload is
non-blank, not `[DONE]` and valid JSON contributes one payload; all other
lines (and unparseable payloads) are skipped. -/
def extractStreamPayloads (jsonParse : String → Option JsValue) (lines : List String) :
    List JsValue :=
  lines.filterMap
    (fun rawLine =>
      match framePayload rawLine with
      | none => none
      | some payload =>
        if payload = "" ∨ payload = "[DONE]" then none
        else jsonParse payload)

/-- `payloads.find(p => typeof p.error === 'object' && p.error !== null)`. -/
def findStreamError (payloads : List JsValue) : Option JsValue :=
  payloads.find?
    (fun p =>
      match jsGetField p "error" with
      | some (.obj _) => true
      | some (.arr _) => true
      | _ => false)

/-- The error message taken from a stream error payload. -/
def streamErrorMessage (p : JsValue) : String :=
  match jsGetField p "error" with
  | some e =>
    match jsGetField e "message" with
    | some (.str m) => m
    | _ => jsonStringify e
  | none => jsonStringify JsValue.null

/-- The per-index accumulator of the stream-choice map. -/
structure StreamChoiceAcc where
  index : ℚ
  role : Option String := none
  finishReason : Option (Option String) := none
  contentParts : List String := []
  reasoningParts : List String := []
deriving Repr, DecidableEq

/-- One reassembled choice of the combined response. -/
structure CombinedChoice where
  index : ℚ
  role : String
  finishReason : String
  content : String
  reasoningContent : String
deriving Repr, DecidableEq

/-- Fold one parsed payload's `choices` array into the accumulator map
(the inner loop of the reassembly). -/
def accumulateChoices (acc : List (ℚ × StreamChoiceAcc)) (payload : JsValue) :
    List (ℚ × StreamChoiceAcc) :=
  let choices :=
    match jsGetField payload "choices" with
    | some (.arr cs) => cs
    | _ => []
  choices.foldl
    (fun acc choice =>
      match choice with
      | .obj _ =>
        let index :=
          match jsGetField choice "index" with
          | some (.num q) => q
          | _ => 0
        let existing := (jsMapGet acc index).getD ⟨index, none, none, [], []⟩
        let existing :=
          match jsGetField choice "delta" with
          | some delta@(.obj _) =>
            let existing :=
              match jsGetField delta "role" with
              | some (.str role) => { existing with role := some role }
              | _ => existing
            let existing :=
              match jsGetField delta "content" with
              | some (.str content) =>
                { existing with contentParts := existing.contentParts ++ [content] }
              | _ => existing
            let existing :=
              match jsGetField delta "reasoning_content" with
              | some (.str rc) =>
                { existing with reasoningParts := existing.reasoningParts ++ [rc] }
              | _ => existing
            match jsGetField delta "reasoning" with
            | some (.str r) =>
              { existing with reasoningParts := existing.reasoningParts ++ [r] }
            | _ => existing
          | _ => existing
        let existing :=
          match jsGetField choice "finish_reason" with
          | some (.str fr) => { existing with finishReason := some (some fr) }
          | some .null => { existing with finishReason := some none }
          | _ => existing
        jsMapSet acc index existing
      | _ => acc)
    acc

/-- `combineStreamChoices`: accumulate all payloads, sort the map's
values by index ascending, and materialise each choice (`role` and
`finish_reason` defaulted, parts concatenated in arrival order). -/
def combineStreamChoices (payloads : List JsValue) : List CombinedChoice :=
  let accs := (payloads.foldl accumulateChoices []).map Prod.snd
  let sorted := jsSortBy (fun a b => a.index ≤ b.index) accs
  sorted.map
    (fun choice =>
      { index := choice.index
        role :=
          match choice.role with
          | some r => if r = "" then "assistant" else r
          | none => "assistant"
        finishReason :=
          match choice.finishReason with
          | some (some fr) => fr
          | _ => "stop"
        content := String.join choice.contentParts
        reasoningContent := String.join choice.reasoningParts })

/-- The streamed branch of `createChatCompletion` after the non-2xx and
empty-body checks: parse the frames, fail when nothing parsed, surface a
stream-reported error, fail when no choice was recovered, else return the
combined choice list. -/
def reassembleStream (jsonParse : String → Option JsValue) (trimmed : String) :
    Except String (List CombinedChoice) :=
  let streamPayloads := extractStreamPayloads jsonParse (dataLines trimmed)
  if streamPayloads.isEmpty then .error "API Error: Unable to parse streamed response"
  else
    match findStreamError streamPayloads with
    | some p => .error ("API Error: " ++ streamErrorMessage p)
    | none =>
      let combinedChoices := combineStreamChoices streamPayloads
      if combinedChoices.isEmpty then
        .error "API Error: Streamed response did not include any choices"
      else .ok combinedChoices

/-- The response-processing tail of `createChatCompletion`: status check,
empty-body check, then either the single-JSON-object branch or the
streamed branch. -/
def processCompletionResponse (jsonParse : String → Option JsValue)
    (statusCode : Option Int) (statusMessage : String) (data : String) :
    Except String (JsValue ⊕ List CombinedChoice) :=
  let ok :=
    match statusCode with
    | some c => 200 ≤ c && c ≤ 299
    | none => false
  if !ok then
    .error ("API Error: " ++ (statusCode.map toString).getD "undefined" ++ " - " ++ statusMessage ++
      (if data ≠ "" then "\n\n" ++ data else ""))
  else
    let trimmed := jsTrim data
    if trimmed = "" then .error "API Error: Empty response body"
    else if trimmed.toList.headD ' ' = '\x7b' then
      match jsonParse trimmed with
      | some v => .ok (.inl v)
      | none => .error "SyntaxError: JSON.parse"
    else (reassembleStream jsonParse trimmed).map Sum.inr

/-- Fuel-indexed helper for `keepFirstOccurrences` (the fuel only needs
to cover the list length). -/
def keepFirstOccurrencesFuel : Nat → List String → List String
  | 0, _ => []
  | _ + 1, [] => []
  | n + 1, x :: l => x :: keepFirstOccurrencesFuel n (l.filter (fun y => !(y == x)))

/-- Specification-side restatement of first-occurrence deduplication:
keep each string's first occurrence, in position, and drop the rest. -/
def keepFirstOccurrences (l : List String) : List String :=
  keepFirstOccurrencesFuel l.length l

/-! ## Helper lemmas -/

theorem jsMapSet_ne_nil {κ β : Type} [DecidableEq κ] (m : List (κ × β)) (k : κ) (v : β) :
    jsMapSet m k v ≠ [] := by
  cases m with
  | nil => simp [jsMapSet]
  | cons h t =>
    simp only [jsMapSet]
    split <;> simp

theorem foldl_jsMapSet_ne_nil {κ β : Type} [DecidableEq κ] (l : List (κ × β)) (m : List (κ × β))
    (hm : m ≠ []) : l.foldl (fun acc kv => jsMapSet acc kv.1 kv.2) m ≠ [] := by
  induction l generalizing m with
  | nil => simpa
  | cons e rest ih => exact ih _ (jsMapSet_ne_nil m e.1 e.2)

theorem jsFromEntries_ne_nil (entries : List (String × String)) (h : entries ≠ []) :
    jsFromEntries entries ≠ [] := by
  cases entries with
  | nil => exact absurd rfl h
  | cons e rest =>
    unfold jsFromEntries
    simpa using foldl_jsMapSet_ne_nil rest (jsMapSet [] e.1 e.2) (jsMapSet_ne_nil [] e.1 e.2)

/-! ## Claim C8 -/

/-- Claim C8: for every raw conventional-types input that is absent, not
valid JSON, not a JSON object, or whose entries all have empty keys or
empty values, `parseConventionalTypes` returns the built-in default
catalog of exactly 11 types (docs, style, refactor, perf, test, build,
ci, chore, revert, feat, fix) with their fixed descriptions; hence the
catalog used by the prompt builder is never empty. -/
theorem parseConventionalTypes_default_fallback (jsonParse : String → Option JsValue) :
    parseConventionalTypes jsonParse none = defaultConventionalTypeDescriptions ∧
    parseConventionalTypes jsonParse (some "") = defaultConventionalTypeDescriptions ∧
    (∀ raw, jsonParse raw = none →
      parseConventionalTypes jsonParse (some raw) = defaultConventionalTypeDescriptions) ∧
    (∀ raw v, jsonParse raw = some v → (∀ fields, v ≠ .obj fields) →
      parseConventionalTypes jsonParse (some raw) = defaultConventionalTypeDescriptions) ∧
    (∀ raw fields, jsonParse raw = some (.obj fields) →
      (∀ kv ∈ fields, jsTrim kv.1 = "" ∨ jsTrim (jsToStringValue kv.2) = "") →
      parseConventionalTypes jsonParse (some raw) = defaultConventionalTypeDescriptions) ∧
    (∀ raw?, parseConventionalTypes jsonParse raw? ≠ []) ∧
    defaultConventionalTypeDescriptions.map Prod.fst =
      ["docs", "style", "refactor", "perf", "test", "build", "ci", "chore", "revert", "feat", "fix"] := by
  have hfilter : ∀ (fields : List (String × JsValue)),
      (∀ kv ∈ fields, jsTrim kv.1 = "" ∨ jsTrim (jsToStringValue kv.2) = "") →
      ((fields.map (fun kv => (jsTrim kv.1, jsTrim (jsToStringValue kv.2)))).filter
        (fun kv => kv.1.length > 0 && kv.2.length > 0)) = [] := by
    intro fields hall
    rw [List.filter_eq_nil_iff]
    intro a ha
    rcases List.mem_map.mp ha with ⟨kv, hkv, rfl⟩
    rcases hall kv hkv with h | h <;> simp [h]
  refine ⟨rfl, ?_, ?_, ?_, ?_, ?_, by decide⟩
  · simp [parseConventionalTypes]
  · intro raw hp
    by_cases hr : raw = ""
    · subst hr; simp [parseConventionalTypes]
    · simp [parseConventionalTypes, hr, hp]
  · intro raw v hp hv
    by_cases hr : raw = ""
    · subst hr; simp [parseConventionalTypes]
    · cases v with
      | obj fields => exact absurd rfl (hv fields)
      | null => simp [parseConventionalTypes, hr, hp]
      | bool b => simp [parseConventionalTypes, hr, hp]
      | num q => simp [parseConventionalTypes, hr, hp]
      | str s => simp [parseConventionalTypes, hr, hp]
      | arr xs => simp [parseConventionalTypes, hr, hp]
  · intro raw fields hp hall
    by_cases hr : raw = ""
    · subst hr; simp [parseConventionalTypes]
    · simp [parseConventionalTypes, hr, hp, hfilter fields hall]
  · intro raw?
    match raw? with
    | none => simp [parseConventionalTypes]; decide
    | some raw =>
      by_cases hr : raw = ""
      · subst hr; simp [parseConventionalTypes]; decide
      · cases hp : jsonParse raw with
        | none => simp [parseConventionalTypes, hr, hp]; decide
        | some v =>
          cases v with
          | obj fields =>
            simp only [parseConventionalTypes, hr, if_false, hp]
            set entries := (fields.map (fun kv => (jsTrim kv.1, jsTrim (jsToStringValue kv.2)))).filter
              (fun kv => kv.1.length > 0 && kv.2.length > 0) with hentries
            by_cases he : entries.isEmpty
            · simp [he]; decide
            · simp only [he, if_false]
              exact jsFromEntries_ne_nil entries (by simpa [List.isEmpty_iff] using he)
          | null => simp [parseConventionalTypes, hr, hp]; decide
          | bool b => simp [parseConventionalTypes, hr, hp]; decide
          | num q => simp [parseConventionalTypes, hr, hp]; decide
          | str s => simp [parseConventionalTypes, hr, hp]; decide
          | arr xs => simp [parseConventionalTypes, hr, hp]; decide

/-- Witness for C8: concrete bad inputs all fall back to the default
catalog (an all-blank-entries object among them), and the default is
non-empty. -/
theorem parseConventionalTypes_default_fallback_witness :
    parseConventionalTypes (fun _ => some (.obj [("", .str "x"), ("a", .str " ")])) (some "raw") =
      defaultConventionalTypeDescriptions ∧
    parseConventionalTypes (fun _ => none) (some "not json") = defaultConventionalTypeDescriptions ∧
    parseConventionalTypes (fun _ => some (.arr [])) (some "[]") = defaultConventionalTypeDescriptions ∧
    parseConventionalTypes (fun _ => none) none ≠ [] := by
  refine ⟨?_, ?_, ?_, ?_⟩
  · exact (parseConventionalTypes_default_fallback _).2.2.2.2.1 "raw" [("", .str "x"), ("a", .str " ")]
      rfl (by decide)
  · exact (parseConventionalTypes_default_fallback _).2.2.1 "not json" rfl
  · exact (parseConventionalTypes_default_fallback _).2.2.2.1 "[]" (.arr []) rfl (by intro f h; cases h)
  · exact (parseConventionalTypes_default_fallback _).2.2.2.2.2.1 none

/-! ## Claim C10 -/

/-- Claim C10: for every completions value less than 1 (including 0 and
negative numbers), each generation pass still issues exactly one
completion request; in general the number of concurrent requests per
pass equals `max(1, completions)`. -/
theorem passCompletionResponses_count (contents : Nat → List (Option String))
    (completions : Int) :
    (passCompletionResponses contents completions).length = (max 1 completions).toNat ∧
    (completions < 1 → (passCompletionResponses contents completions).length = 1) := by
  refine ⟨by simp [passCompletionResponses], fun h => ?_⟩
  simp only [passCompletionResponses, List.length_map, List.length_range]
  omega

/-- Witness for C10: with `completions = 0` and `completions = -2` a pass
issues exactly one request. -/
theorem passCompletionResponses_count_witness :
    (passCompletionResponses (fun _ => [some "m"]) 0).length = 1 ∧
    (passCompletionResponses (fun _ => [some "m"]) (-2)).length = 1 :=
  ⟨(passCompletionResponses_count (fun _ => [some "m"]) 0).2 (by decide),
   (passCompletionResponses_count (fun _ => [some "m"]) (-2)).2 (by decide)⟩

/-! ## Sorting lemmas (for the judge ranking) -/

theorem perm_jsOrderedInsert {α : Type} (le : α → α → Bool) (a : α) (l : List α) :
    (jsOrderedInsert le a l).Perm (a :: l) := by
  induction l with
  | nil => simp [jsOrderedInsert]
  | cons b t ih =>
    simp only [jsOrderedInsert]
    split
    · exact List.Perm.refl _
    · exact ((ih.cons b).trans (List.Perm.swap a b t))

theorem perm_jsSortBy {α : Type} (le : α → α → Bool) (l : List α) :
    (jsSortBy le l).Perm l := by
  induction l with
  | nil => simp [jsSortBy]
  | cons a t ih =>
    exact (perm_jsOrderedInsert le a (jsSortBy le t)).trans (ih.cons a)

theorem mem_jsSortBy {α : Type} (le : α → α → Bool) (l : List α) (x : α) :
    x ∈ jsSortBy le l ↔ x ∈ l :=
  (perm_jsSortBy le l).mem_iff

/-- Insertion keeps pairwise-adjacent order, under totality of `le`; the
inserted list's head is the inserted element or the old head. -/
theorem chain'_jsOrderedInsert {α : Type} (le : α → α → Bool)
    (tot : ∀ a b, le a b = true ∨ le b a = true) (a : α) (l : List α)
    (h : List.Chain' (fun x y => le x y = true) l) :
    List.Chain' (fun x y => le x y = true) (jsOrderedInsert le a l) ∧
    (∀ h', (jsOrderedInsert le a l).head? = some h' → h' = a ∨ l.head? = some h') := by
  induction l with
  | nil => simp [jsOrderedInsert]
  | cons b t ih =>
    simp only [jsOrderedInsert]
    split
    · next hle =>
      refine ⟨List.Chain'.cons hle h, ?_⟩
      intro h' hh'
      simp at hh'
      exact Or.inl hh'.symm
    · next hnle =>
      have hba : le b a = true := by
        rcases tot a b with h1 | h1
        · exact absurd h1 hnle
        · exact h1
      obtain ⟨ihc, ihh⟩ := ih h.tail
      refine ⟨?_, ?_⟩
      · rw [List.chain'_cons']
        refine ⟨?_, ihc⟩
        intro y hy
        rcases ihh y hy with rfl | hy2
        · exact hba
        · cases t with
          | nil => simp at hy2
          | cons c t' =>
            simp at hy2
            subst hy2
            exact (List.chain'_cons.mp h).1
      · intro h' hh'
        simp at hh'
        exact Or.inr (by simp [hh'.symm])

theorem chain'_jsSortBy {α : Type} (le : α → α → Bool)
    (tot : ∀ a b, le a b = true ∨ le b a = true) (l : List α) :
    List.Chain' (fun x y => le x y = true) (jsSortBy le l) := by
  induction l with
  | nil => simp [jsSortBy]
  | cons a t ih => exact (chain'_jsOrderedInsert le tot a (jsSortBy le t) ih).1

namespace Judge

theorem judgeLe_total (a b : Candidate) : judgeLe a b = true ∨ judgeLe b a = true := by
  have heps : (0 : ℚ) < scoreEpsilon := by norm_num [scoreEpsilon]
  simp only [judgeLe, decide_eq_true_eq]
  rcases le_or_lt (judgeCompare a b) 0 with h | h
  · exact Or.inl h
  · right
    unfold judgeCompare at h ⊢
    by_cases hg : a.hardGatePass = b.hardGatePass
    · have hg1 : ¬ (a.hardGatePass ≠ b.hardGatePass) := by simp [hg]
      have hg2 : ¬ (b.hardGatePass ≠ a.hardGatePass) := by simp [hg]
      simp only [hg1, hg2, if_false] at h ⊢
      split_ifs at h ⊢ <;> first | linarith | (norm_num at h)
    · have hg2 : b.hardGatePass ≠ a.hardGatePass := fun hh => hg hh.symm
      rw [if_pos hg] at h
      rw [if_pos hg2]
      cases ha : a.hardGatePass
      · rw [ha] at h
        simp only [Bool.false_eq_true, if_false] at h
        have hb : b.hardGatePass = true := by
          cases hbv : b.hardGatePass
          · rw [ha, hbv] at hg; exact absurd rfl hg
          · rfl
        rw [hb]
        norm_num
      · rw [ha] at h
        simp only [if_true] at h
        norm_num at h

theorem judgeLe_gate (a b : Candidate) (h : judgeLe a b = true) (hb : b.hardGatePass = true) :
    a.hardGatePass = true := by
  by_contra ha
  have ha' : a.hardGatePass = false := by simpa using ha
  have hne : a.hardGatePass ≠ b.hardGatePass := by simp [ha', hb]
  simp only [judgeLe, judgeCompare, hne, ha', if_true, decide_eq_true_eq] at h
  simp only [hb, Bool.false_eq_true, if_false, if_true] at h
  norm_num at h

theorem judgeLe_scores (a b : Candidate) (h : judgeLe a b = true)
    (hg : a.hardGatePass = b.hardGatePass) :
    b.weightedScore - a.weightedScore ≤ scoreEpsilon ∧
    (a.weightedScore - b.weightedScore ≤ scoreEpsilon → b.typeWeight ≤ a.typeWeight) := by
  have hne : ¬ (a.hardGatePass ≠ b.hardGatePass) := by simpa using hg
  simp only [judgeLe, judgeCompare, hne, if_false, decide_eq_true_eq] at h
  split_ifs at h with h1 h2
  · norm_num at h
  · exact ⟨by linarith, fun hle => by linarith⟩
  · exact ⟨by linarith, fun _ => by linarith⟩

/-- Along a pairwise chain, a `judgeLe`-monotone Boolean attribute
propagates from any later element to an earlier one. -/
theorem chain'_cons_gate (l2 : List Candidate) :
    ∀ a, List.Chain' (fun x y => judgeLe x y = true) (a :: l2) →
      ∀ b ∈ l2, b.hardGatePass = true → a.hardGatePass = true := by
  induction l2 with
  | nil => simp
  | cons c t ih =>
    intro a hch b hb hfb
    have hRac : judgeLe a c = true := (List.chain'_cons.mp hch).1
    have hchct : List.Chain' (fun x y => judgeLe x y = true) (c :: t) :=
      (List.chain'_cons.mp hch).2
    rcases List.mem_cons.mp hb with rfl | hb
    · exact judgeLe_gate a b hRac hfb
    · exact judgeLe_gate a c hRac (ih c hchct b hb hfb)

end Judge

/-! ## Claim C1 -/

/-- Claim C1: every conventional-type candidate built by the classifier
has `weightedScore = (evidenceMatch*0.55 + titleBodyConsistency*0.30 +
exclusivity*0.15) * typeWeight`, where `typeWeight` is exactly 1.10 for
category refactor, 1.00 for feat, 0.80 for fix, 0.75 for perf and 0.95
for other; and its effective `hardGatePass` equals the model-reported
gate when its category is fix or perf, and is `true` for every other
category regardless of the model-reported gate. -/
theorem judge_candidate_score_formula (catalog : List (String × String))
    (raw : List (String × JsValue)) (c : Judge.Candidate)
    (hc : c ∈ Judge.getRankedTypesByJudgeScores catalog raw) :
    c.weightedScore =
      (c.evidenceMatch * (0.55 : ℚ) + c.titleBodyConsistency * (0.30 : ℚ) +
        c.exclusivity * (0.15 : ℚ)) * c.typeWeight ∧
    c.typeWeight = Judge.judgeTypeWeights c.weightCategory ∧
    Judge.judgeTypeWeights .refactor = (1.10 : ℚ) ∧
    Judge.judgeTypeWeights .feat = (1.00 : ℚ) ∧
    Judge.judgeTypeWeights .fix = (0.80 : ℚ) ∧
    Judge.judgeTypeWeights .perf = (0.75 : ℚ) ∧
    Judge.judgeTypeWeights .other = (0.95 : ℚ) ∧
    c.hardGatePass =
      (if c.weightCategory = .fix ∨ c.weightCategory = .perf then c.modelHardGatePass
       else true) := by
  have hmem : c ∈ Judge.buildCandidates catalog raw :=
    (mem_jsSortBy Judge.judgeLe _ c).mp hc
  unfold Judge.buildCandidates at hmem
  rcases List.mem_filterMap.mp hmem with ⟨td, _, hcase⟩
  rcases hbind : (jsMapGet (Judge.normalizeScoreMap raw) (normalizeKey td.1)).bind
      Judge.parseJudgeTypeScore with _ | score
  · simp only [hbind] at hcase
    exact Option.noConfusion hcase
  · simp only [hbind, Option.some.injEq] at hcase
    have hc' : c = Judge.mkCandidate td.1 td.2 score := hcase.symm
    subst hc'
    refine ⟨rfl, rfl, rfl, rfl, rfl, rfl, rfl, ?_⟩
    simp only [Judge.mkCandidate]
    by_cases hfp :
        Judge.inferScoreWeightCategory td.1 td.2 = .fix ∨
        Judge.inferScoreWeightCategory td.1 td.2 = .perf
    · have : (Judge.inferScoreWeightCategory td.1 td.2 = Judge.ScoreWeightCategory.fix ||
          Judge.inferScoreWeightCategory td.1 td.2 = Judge.ScoreWeightCategory.perf) = true := by
        rcases hfp with h | h <;> simp [h]
      simp [this, hfp]
    · have : (Judge.inferScoreWeightCategory td.1 td.2 = Judge.ScoreWeightCategory.fix ||
          Judge.inferScoreWeightCategory td.1 td.2 = Judge.ScoreWeightCategory.perf) = false := by
        push_neg at hfp
        simp [hfp.1, hfp.2]
      simp [this, hfp]

/-- Witness for C1: a concrete catalog and score set produce a candidate
whose fields obey the scoring formula and gate override. -/
theorem judge_candidate_score_formula_witness :
    ∃ c ∈ Judge.getRankedTypesByJudgeScores
      [("fix", "A bug fix")]
      [("fix", .obj [("evidenceMatch", .num 4), ("titleBodyConsistency", .num 6),
        ("exclusivity", .num 2), ("hardGatePass", .bool false)])],
      c.weightedScore =
        (c.evidenceMatch * (0.55 : ℚ) + c.titleBodyConsistency * (0.30 : ℚ) +
          c.exclusivity * (0.15 : ℚ)) * c.typeWeight ∧
      c.hardGatePass = false := by
  have hlist : Judge.getRankedTypesByJudgeScores
      [("fix", "A bug fix")]
      [("fix", .obj [("evidenceMatch", .num 4), ("titleBodyConsistency", .num 6),
        ("exclusivity", .num 2), ("hardGatePass", .bool false)])] =
      [Judge.mkCandidate "fix" "A bug fix" ⟨4, 6, 2, false⟩] := rfl
  have hmem : Judge.mkCandidate "fix" "A bug fix" ⟨4, 6, 2, false⟩ ∈
      Judge.getRankedTypesByJudgeScores
        [("fix", "A bug fix")]
        [("fix", .obj [("evidenceMatch", .num 4), ("titleBodyConsistency", .num 6),
          ("exclusivity", .num 2), ("hardGatePass", .bool false)])] := by
    rw [hlist]
    exact List.mem_singleton.mpr rfl
  exact ⟨_, hmem, ⟨(judge_candidate_score_formula _ _ _ hmem).1, rfl⟩⟩

/-! ## Claim C2 -/

/-- Claim C2: the classifier's ranking is a permutation of the built
candidates ordered by the comparator — hard-gate-passing candidates
before gate-failing ones; between gate-equal neighbours the weighted
score may exceed the earlier one's by at most `1e-6`, and within that
tie the later `typeWeight` is no larger — and the selected type is the
first gate-passing candidate in that order, else the first candidate
whose category is neither fix nor perf, else the top-ranked candidate. -/
theorem judge_ranking_and_selection (catalog : List (String × String))
    (raw : List (String × JsValue)) :
    (Judge.getRankedTypesByJudgeScores catalog raw).Perm
      (Judge.buildCandidates catalog raw) ∧
    (∀ l1 a l2, Judge.getRankedTypesByJudgeScores catalog raw = l1 ++ a :: l2 →
      ∀ b ∈ l2, b.hardGatePass = true → a.hardGatePass = true) ∧
    (∀ l1 a b l2, Judge.getRankedTypesByJudgeScores catalog raw = l1 ++ a :: b :: l2 →
      a.hardGatePass = b.hardGatePass →
      b.weightedScore - a.weightedScore ≤ Judge.scoreEpsilon ∧
      (a.weightedScore - b.weightedScore ≤ Judge.scoreEpsilon →
        b.typeWeight ≤ a.typeWeight)) ∧
    (∀ c, (Judge.getRankedTypesByJudgeScores catalog raw).find?
        (fun c => c.hardGatePass) = some c →
      (Judge.buildConventionalTypeJudgeReport catalog raw).selectedType = some c.typeName) ∧
    ((Judge.getRankedTypesByJudgeScores catalog raw).find? (fun c => c.hardGatePass) = none →
      ∀ c, (Judge.getRankedTypesByJudgeScores catalog raw).find? Judge.nonFixPerf = some c →
      (Judge.buildConventionalTypeJudgeReport catalog raw).selectedType = some c.typeName) ∧
    ((Judge.getRankedTypesByJudgeScores catalog raw).find? (fun c => c.hardGatePass) = none →
      (Judge.getRankedTypesByJudgeScores catalog raw).find? Judge.nonFixPerf = none →
      (Judge.buildConventionalTypeJudgeReport catalog raw).selectedType =
        (Judge.getRankedTypesByJudgeScores catalog raw).head?.map
          (fun c => c.typeName)) := by
  have hchain : List.Chain' (fun x y => Judge.judgeLe x y = true)
      (Judge.getRankedTypesByJudgeScores catalog raw) :=
    chain'_jsSortBy Judge.judgeLe Judge.judgeLe_total _
  refine ⟨perm_jsSortBy _ _, ?_, ?_, ?_, ?_, ?_⟩
  · intro l1 a l2 heq b hb hfb
    have hsuffix : List.Chain' (fun x y => Judge.judgeLe x y = true) (a :: l2) := by
      rw [heq] at hchain
      exact List.Chain'.right_of_append hchain
    exact Judge.chain'_cons_gate l2 a hsuffix b hb hfb
  · intro l1 a b l2 heq hg
    have hsuffix : List.Chain' (fun x y => Judge.judgeLe x y = true) (a :: b :: l2) := by
      rw [heq] at hchain
      exact List.Chain'.right_of_append hchain
    exact Judge.judgeLe_scores a b (List.chain'_cons.mp hsuffix).1 hg
  · intro c hfind
    simp [Judge.buildConventionalTypeJudgeReport, hfind]
  · intro hnone c hfind
    simp [Judge.buildConventionalTypeJudgeReport, hnone, hfind]
  · intro hnone1 hnone2
    simp [Judge.buildConventionalTypeJudgeReport, hnone1, hnone2]

/-- Witness for C2: a concrete single-candidate score set whose only
candidate fails the gate and has category fix, so selection falls back
to the top-ranked candidate. -/
theorem judge_ranking_and_selection_witness :
    (Judge.buildConventionalTypeJudgeReport
      [("fix", "A bug fix")]
      [("fix", .obj [("evidenceMatch", .num 4), ("titleBodyConsistency", .num 6),
        ("exclusivity", .num 2), ("hardGatePass", .bool false)])]).selectedType =
      some "fix" := by
  have h := (judge_ranking_and_selection
    [("fix", "A bug fix")]
    [("fix", .obj [("evidenceMatch", .num 4), ("titleBodyConsistency", .num 6),
      ("exclusivity", .num 2), ("hardGatePass", .bool false)])]).2.2.2.2.2
  exact h rfl rfl

/-! ## Claim C4 -/

/-- Claim C4: the completion client parses each `data:` frame
independently — a frame whose payload is not valid JSON is skipped
without affecting the rest of the call — and the reassembly fails with
an `ApiError` when the response contains zero recoverable choices (and
likewise when no frame could be parsed at all). -/
theorem stream_frames_skip_and_no_choices_error (jsonParse : String → Option JsValue) :
    (∀ l1 l2 badLine payload,
      framePayload badLine = some payload → payload ≠ "" → payload ≠ "[DONE]" →
      jsonParse payload = none →
      extractStreamPayloads jsonParse (l1 ++ badLine :: l2) =
        extractStreamPayloads jsonParse (l1 ++ l2)) ∧
    (∀ trimmed,
      extractStreamPayloads jsonParse (dataLines trimmed) ≠ [] →
      findStreamError (extractStreamPayloads jsonParse (dataLines trimmed)) = none →
      combineStreamChoices (extractStreamPayloads jsonParse (dataLines trimmed)) = [] →
      reassembleStream jsonParse trimmed =
        .error "API Error: Streamed response did not include any choices") ∧
    (∀ trimmed, extractStreamPayloads jsonParse (dataLines trimmed) = [] →
      reassembleStream jsonParse trimmed =
        .error "API Error: Unable to parse streamed response") := by
  refine ⟨?_, ?_, ?_⟩
  · intro l1 l2 badLine payload hframe hne hdone hparse
    unfold extractStreamPayloads
    rw [List.filterMap_append, List.filterMap_append, List.filterMap_cons]
    have hf : (if payload = "" ∨ payload = "[DONE]" then (none : Option JsValue)
        else jsonParse payload) = none := by
      rw [if_neg (by push_neg; exact ⟨hne, hdone⟩)]
      exact hparse
    simp [hframe, hf]
  · intro trimmed h1 h2 h3
    have h1' : (extractStreamPayloads jsonParse (dataLines trimmed)).isEmpty = false := by
      simpa [List.isEmpty_iff] using h1
    simp [reassembleStream, h1', h2, h3]
  · intro trimmed h1
    simp [reassembleStream, h1]

/-- Witness for C4: a stream whose first frame is invalid JSON and whose
only parsed frame has no choices — the invalid frame is skipped, and the
call fails with the no-choices `ApiError`. -/
theorem stream_frames_skip_and_no_choices_error_witness :
    extractStreamPayloads
      (fun s => if s = "\x7b\x22id\x22:\x22x\x22\x7d" then some (.obj [("id", .str "x")]) else none)
      (["data: \x7b\x22id\x22:\x22x\x22\x7d"] ++ "data: bad" :: []) =
      extractStreamPayloads
        (fun s => if s = "\x7b\x22id\x22:\x22x\x22\x7d" then some (.obj [("id", .str "x")]) else none)
        (["data: \x7b\x22id\x22:\x22x\x22\x7d"] ++ []) ∧
    reassembleStream
      (fun s => if s = "\x7b\x22id\x22:\x22x\x22\x7d" then some (.obj [("id", .str "x")]) else none)
      "data: bad\n\ndata: \x7b\x22id\x22:\x22x\x22\x7d" =
      .error "API Error: Streamed response did not include any choices" := by
  constructor
  · exact (stream_frames_skip_and_no_choices_error _).1
      ["data: \x7b\x22id\x22:\x22x\x22\x7d"] [] "data: bad" "bad" rfl
      (by decide) (by decide) rfl
  · have hx : extractStreamPayloads
        (fun s => if s = "\x7b\x22id\x22:\x22x\x22\x7d" then some (.obj [("id", .str "x")]) else none)
        (dataLines "data: bad\n\ndata: \x7b\x22id\x22:\x22x\x22\x7d") =
        [.obj [("id", .str "x")]] := rfl
    exact (stream_frames_skip_and_no_choices_error _).2.1
      "data: bad\n\ndata: \x7b\x22id\x22:\x22x\x22\x7d"
      (by rw [hx]; exact List.cons_ne_nil _ _) rfl rfl

/-! ## Claim C6 -/

/-- Counterexample to C6 as stated: with a Chinese locale, a
whitespace-padded message and a rewrite request that succeeds but yields
no usable rewritten title, `enforceTitleLocale` returns the trimmed
title, not the input message unchanged. -/
theorem enforceTitleLocale_not_always_unchanged :
    enforceTitleLocale " Fix parser " false "zh-CN" (.ok none) ≠ " Fix parser " := by decide

/-- Claim C6 (amended): the locale-enforcement pass never propagates a
failure — it is a total function of the rewrite outcome — and (a) when
the rewrite request throws, the input message is returned exactly
unchanged; (b) when the request succeeds but yields no usable rewritten
title (no string content, or content sanitizing to empty), the message
is returned with its content preserved only up to title sanitization and
title/body reassembly (trimmed title; title and body rejoined), not
necessarily byte-identical to the input. -/
theorem enforceTitleLocale_failure_behavior (message : String) (includeDetails : Bool)
    (locale : String) :
    (∀ e : Unit, enforceTitleLocale message includeDetails locale (.error e) = message) ∧
    (∀ content : Option String,
      (content = none ∨ ∃ s, content = some s ∧ sanitizeSimpleMessage s = "") →
      enforceTitleLocale message includeDetails locale (.ok content) =
        (if shouldRewriteTitleToLocale
            (if includeDetails then (splitCommitMessage message).1 else jsTrim message) locale
         then
          (if includeDetails then
            formatCommitMessage (splitCommitMessage message).1 (splitCommitMessage message).2
           else jsTrim message)
         else message)) := by
  constructor
  · intro e
    unfold enforceTitleLocale
    split <;> (split <;> simp_all)
  · intro content hcontent
    have hrw : ∀ title, rewriteTitleToLocale title content = title := by
      intro title
      rcases hcontent with rfl | ⟨s, rfl, hs⟩
      · rfl
      · unfold rewriteTitleToLocale
        simp [hs]
    unfold enforceTitleLocale
    cases hsr : shouldRewriteTitleToLocale
        (if includeDetails then (splitCommitMessage message).1 else jsTrim message) locale
    · cases hid : includeDetails <;> simp_all
    · cases hid : includeDetails <;> simp_all

/-- Witness for C6 (amended): on a thrown rewrite the padded message is
returned exactly; on a successful-but-unusable rewrite the reassembled
(trimmed) message is returned. -/
theorem enforceTitleLocale_failure_behavior_witness :
    enforceTitleLocale " Fix parser " false "zh-CN" (.error ()) = " Fix parser " ∧
    enforceTitleLocale " Fix parser " false "zh-CN" (.ok none) = "Fix parser" := by
  constructor
  · exact (enforceTitleLocale_failure_behavior " Fix parser " false "zh-CN").1 ()
  · have h := (enforceTitleLocale_failure_behavior " Fix parser " false "zh-CN").2 none
      (Or.inl rfl)
    rw [h]
    rfl

/-! ## Character-class and trimming lemmas -/

theorem jsWhitespaceB_cases {c : Char} (h : jsWhitespaceB c = true) :
    c = ' ' ∨ c = '\t' ∨ c = '\n' ∨ c = '\r' ∨ c = '\x0b' ∨ c = '\x0c' := by
  simp only [jsWhitespaceB, Bool.or_eq_true, decide_eq_true_eq] at h
  tauto

theorem isAsciiLetterB_not_ws {c : Char} (h : isAsciiLetterB c = true) :
    jsWhitespaceB c = false := by
  cases hw : jsWhitespaceB c
  · rfl
  · rcases jsWhitespaceB_cases hw with rfl | rfl | rfl | rfl | rfl | rfl <;>
      exact absurd h (by decide)

theorem dropWhile_eq_self_of {p : Char → Bool} {l : List Char}
    (h : ∀ c ∈ l, p c = false) : l.dropWhile p = l := by
  cases l with
  | nil => rfl
  | cons a t => simp [List.dropWhile, h a (List.mem_cons_self a t)]

theorem trimChars_eq_self_of {l : List Char}
    (h : ∀ c ∈ l, jsWhitespaceB c = false) : trimChars l = l := by
  unfold trimChars
  rw [dropWhile_eq_self_of h]
  rw [dropWhile_eq_self_of (fun c hc => h c (List.mem_reverse.mp hc))]
  exact List.reverse_reverse l

theorem toList_asString (l : List Char) : l.asString.toList = l := rfl

theorem asString_eq_empty_iff (l : List Char) : l.asString = "" ↔ l = [] := by
  constructor
  · intro h
    have : (l.asString).toList = ("" : String).toList := by rw [h]
    simpa using this
  · rintro rfl
    rfl

/-- The type word captured by the conventional-title pattern is a
non-empty all-letter word: trimming keeps it, lowering keeps it
non-empty. -/
theorem matchTitleTypeScope_type_facts {title ty : String} {osc : Option String} {subj : String}
    (h : matchTitleTypeScope title = some (ty, osc, subj)) :
    jsTrim ty = ty ∧ jsToLower (jsTrim ty) ≠ "" := by
  have hty : ty = (title.toList.takeWhile isAsciiLetterB).asString ∧
      (title.toList.takeWhile isAsciiLetterB) ≠ [] := by
    unfold matchTitleTypeScope at h
    by_cases he : (title.toList.takeWhile isAsciiLetterB).isEmpty = true
    · rw [if_pos he] at h
      exact Option.noConfusion h
    · rw [if_neg he] at h
      rcases hsc : titleScopeStep (title.toList.dropWhile isAsciiLetterB) with _ | ⟨scope, rest⟩
      · rw [hsc] at h
        exact Option.noConfusion h
      · rw [hsc] at h
        dsimp only at h
        rcases hsub : titleSubjectStep rest with _ | subj'
        · rw [hsub] at h
          exact Option.noConfusion h
        · rw [hsub] at h
          dsimp only at h
          simp only [Option.some.injEq, Prod.mk.injEq] at h
          exact ⟨h.1.symm, by simpa [List.isEmpty_iff] using he⟩
  obtain ⟨hts, hne⟩ := hty
  subst hts
  have hnws : ∀ c ∈ title.toList.takeWhile isAsciiLetterB, jsWhitespaceB c = false :=
    fun c hc => isAsciiLetterB_not_ws (List.mem_takeWhile_imp hc)
  have htrim : jsTrim (title.toList.takeWhile isAsciiLetterB).asString =
      (title.toList.takeWhile isAsciiLetterB).asString := by
    unfold jsTrim
    rw [toList_asString, trimChars_eq_self_of hnws]
  refine ⟨htrim, ?_⟩
  rw [htrim]
  unfold jsToLower
  rw [toList_asString, Ne, asString_eq_empty_iff, List.map_eq_nil_iff]
  exact hne

theorem mem_dedupFirstAux {a : String} : ∀ {l seen : List String},
    a ∈ dedupFirstAux seen l → a ∈ l := by
  intro l
  induction l with
  | nil => intro seen h; exact absurd h (by simp [dedupFirstAux])
  | cons x xs ih =>
    intro seen h
    unfold dedupFirstAux at h
    by_cases hx : x ∈ seen
    · rw [if_pos hx] at h
      exact List.mem_cons_of_mem x (ih h)
    · rw [if_neg hx] at h
      rcases List.mem_cons.mp h with rfl | h2
      · exact List.mem_cons_self _ _
      · exact List.mem_cons_of_mem _ (ih h2)

theorem mem_of_mem_deduplicateMessages {a : String} {l : List String}
    (h : a ∈ deduplicateMessages l) : a ∈ l :=
  mem_dedupFirstAux h

/-! ## Claim C9 -/

/-- Claim C9: in conventional mode with `conventionalScope` explicitly
`false`, every returned message has passed the scope-stripping map; that
map rewrites a title matching `type(scope): subject` into the lowercased
`type: subject` title while keeping the split body unchanged, and leaves
messages with non-matching titles unmodified. -/
theorem strip_scope_normalization :
    (∀ (message : String) (includeDetails : Bool) ty sc subj,
      matchTitleTypeScope
        (if includeDetails then (splitCommitMessage message).1 else jsTrim message) =
        some (ty, sc, subj) →
      jsTrim subj ≠ "" →
      stripConventionalScopeFromMessage message includeDetails =
        (if includeDetails then
          formatCommitMessage (jsToLower (jsTrim ty) ++ ": " ++ jsTrim subj)
            (splitCommitMessage message).2
         else jsToLower (jsTrim ty) ++ ": " ++ jsTrim subj)) ∧
    (∀ (message : String) (includeDetails : Bool),
      matchTitleTypeScope
        (if includeDetails then (splitCommitMessage message).1 else jsTrim message) = none →
      stripConventionalScopeFromMessage message includeDetails = message) ∧
    (∀ (jsonParse : String → Option JsValue) (oracle : GenOracle) (locale : String)
        (completions : Int) (opts : GenOptions),
      opts.conventionalScope = some false →
      ∀ m ∈ generateCommitMessageModel jsonParse oracle locale completions .conventional opts,
        ∃ m', m = stripConventionalScopeFromMessage m' (opts.includeDetails.getD false)) := by
  have htb : ∀ (message : String) (includeDetails : Bool),
      (if includeDetails then splitCommitMessage message else (jsTrim message, "")).1 =
      (if includeDetails then (splitCommitMessage message).1 else jsTrim message) := by
    intro message includeDetails
    cases includeDetails <;> rfl
  refine ⟨?_, ?_, ?_⟩
  · intro message includeDetails ty sc subj hmatch hsubj
    have hty := matchTitleTypeScope_type_facts hmatch
    simp only [stripConventionalScopeFromMessage]
    rw [htb message includeDetails, hmatch]
    dsimp only
    rw [if_neg (by simp [hty.2, hsubj])]
    cases includeDetails <;> simp
  · intro message includeDetails hmatch
    simp only [stripConventionalScopeFromMessage]
    rw [htb message includeDetails, hmatch]
  · intro jsonParse oracle locale completions opts hscope m hm
    unfold generateCommitMessageModel at hm
    have henf : (CommitType.conventional = CommitType.conventional &&
        opts.conventionalScope.getD false &&
        supportsConventionalScope opts.conventionalFormat) = false := by
      rw [hscope]
      simp [Option.getD]
    rw [henf] at hm
    simp only [Bool.not_false, if_true] at hm
    have hm2 : m ∈ requestMessagesPre jsonParse oracle opts .conventional locale completions
        none true := mem_of_mem_deduplicateMessages hm
    unfold requestMessagesPre at hm2
    have hcond : (CommitType.conventional = CommitType.conventional &&
        opts.conventionalScope = some false) = true := by
      simp [hscope]
    rw [hcond] at hm2
    simp only [if_true] at hm2
    have hm3 := List.mem_filter.mp hm2
    rcases List.mem_map.mp hm3.1 with ⟨m', _, hmm⟩
    exact ⟨m', hmm.symm⟩

/-- Witness for C9: a scoped, capitalised title loses its scope and is
lowercased; a plain title passes through unchanged. -/
theorem strip_scope_normalization_witness :
    stripConventionalScopeFromMessage "Fix(Core): handle empty diff" false =
      "fix: handle empty diff" ∧
    stripConventionalScopeFromMessage "plain title" false = "plain title" := by
  constructor
  · have h := strip_scope_normalization.1 "Fix(Core): handle empty diff" false
      "Fix" (some "(Core)") "handle empty diff" rfl (by decide)
    rw [h]
    rfl
  · exact strip_scope_normalization.2.1 "plain title" false rfl

/-! ## Deduplication lemmas -/

theorem keepFirstOccurrencesFuel_congr : ∀ (n m : ℕ) (l : List String),
    l.length ≤ n → l.length ≤ m →
    keepFirstOccurrencesFuel n l = keepFirstOccurrencesFuel m l := by
  intro n
  induction n with
  | zero =>
    intro m l hl _
    rw [List.length_eq_zero.mp (Nat.le_zero.mp hl)]
    cases m <;> rfl
  | succ n ih =>
    intro m l hl hm
    cases l with
    | nil => cases m <;> rfl
    | cons x xs =>
      cases m with
      | zero => simp at hm
      | succ m =>
        simp only [keepFirstOccurrencesFuel]
        congr 1
        have hf := List.length_filter_le (fun y => !(y == x)) xs
        simp only [List.length_cons] at hl hm
        exact ih m _ (by omega) (by omega)

theorem keepFirstOccurrences_nil : keepFirstOccurrences [] = [] := rfl

theorem keepFirstOccurrences_cons (x : String) (l : List String) :
    keepFirstOccurrences (x :: l) =
      x :: keepFirstOccurrences (l.filter (fun y => !(y == x))) := by
  unfold keepFirstOccurrences
  simp only [List.length_cons, keepFirstOccurrencesFuel]
  congr 1
  exact keepFirstOccurrencesFuel_congr _ _ _ (List.length_filter_le _ _) (Nat.le_refl _)

theorem mem_keepFirstOccurrences {a : String} : ∀ {n : ℕ} {l : List String}, l.length ≤ n →
    a ∈ keepFirstOccurrences l → a ∈ l := by
  intro n
  induction n with
  | zero =>
    intro l hl h
    rw [List.length_eq_zero.mp (Nat.le_zero.mp hl)] at h ⊢
    rwa [keepFirstOccurrences_nil] at h
  | succ n ih =>
    intro l hl h
    cases l with
    | nil => rwa [keepFirstOccurrences_nil] at h
    | cons x xs =>
      rw [keepFirstOccurrences_cons] at h
      rcases List.mem_cons.mp h with rfl | h2
      · exact List.mem_cons_self _ _
      · have hlen : (xs.filter (fun y => !(y == x))).length ≤ n := by
          have := List.length_filter_le (fun y => !(y == x)) xs
          simp only [List.length_cons] at hl
          omega
        exact List.mem_cons_of_mem _ (List.mem_of_mem_filter (ih hlen h2))

theorem nodup_keepFirstOccurrences : ∀ {n : ℕ} {l : List String}, l.length ≤ n →
    (keepFirstOccurrences l).Nodup := by
  intro n
  induction n with
  | zero =>
    intro l hl
    rw [List.length_eq_zero.mp (Nat.le_zero.mp hl), keepFirstOccurrences_nil]
    exact List.nodup_nil
  | succ n ih =>
    intro l hl
    cases l with
    | nil => rw [keepFirstOccurrences_nil]; exact List.nodup_nil
    | cons x xs =>
      rw [keepFirstOccurrences_cons]
      have hlen : (xs.filter (fun y => !(y == x))).length ≤ n := by
        have := List.length_filter_le (fun y => !(y == x)) xs
        simp only [List.length_cons] at hl
        omega
      refine List.Nodup.cons ?_ (ih hlen)
      intro hx
      have hmem := mem_keepFirstOccurrences hlen hx
      have := List.of_mem_filter hmem
      simp at this

theorem dedupFirstAux_eq_keepFirst : ∀ (l seen : List String),
    dedupFirstAux seen l = keepFirstOccurrences (l.filter (fun y => !seen.contains y)) := by
  intro l
  induction l with
  | nil =>
    intro seen
    rw [List.filter_nil, keepFirstOccurrences_nil]
    rfl
  | cons x xs ih =>
    intro seen
    unfold dedupFirstAux
    by_cases hx : x ∈ seen
    · rw [if_pos hx, ih seen]
      rw [List.filter_cons_of_neg (by simpa using hx)]
    · rw [if_neg hx, ih (x :: seen)]
      rw [List.filter_cons_of_pos (by simpa using hx)]
      rw [keepFirstOccurrences_cons, List.filter_filter]
      have hpred : ∀ a ∈ xs, (!(x :: seen).contains a) = ((!(a == x)) && (!seen.contains a)) := by
        intro a _
        show (!List.elem a (x :: seen)) = _
        rw [List.elem_cons]
        cases hax : a == x
        · simp
        · simp
      rw [List.filter_congr hpred]

theorem deduplicateMessages_eq_keepFirst (l : List String) :
    deduplicateMessages l = keepFirstOccurrences l := by
  unfold deduplicateMessages
  rw [dedupFirstAux_eq_keepFirst]
  congr 1
  simpa using List.filter_true l

theorem nodup_deduplicateMessages (l : List String) : (deduplicateMessages l).Nodup := by
  rw [deduplicateMessages_eq_keepFirst]
  exact nodup_keepFirstOccurrences (Nat.le_refl _)

/-- `requestMessages` consults the network only through the completion
oracle at its own merged-instruction key and the rewrite oracle. -/
theorem requestMessagesPre_oracle_congr (jsonParse : String → Option JsValue)
    (o o' : GenOracle) (opts : GenOptions) (ctype : CommitType) (locale : String)
    (completions : Int) (extra : Option String) (includeUser : Bool)
    (h1 : o'.completionContents (mergedInstructionsModel opts.instructions includeUser extra) =
      o.completionContents (mergedInstructionsModel opts.instructions includeUser extra))
    (h2 : o'.rewriteOutcome = o.rewriteOutcome) :
    requestMessagesPre jsonParse o' opts ctype locale completions extra includeUser =
    requestMessagesPre jsonParse o opts ctype locale completions extra includeUser := by
  simp only [requestMessagesPre]
  rw [h1, h2]

theorem requestMessagesModel_oracle_congr (jsonParse : String → Option JsValue)
    (o o' : GenOracle) (opts : GenOptions) (ctype : CommitType) (locale : String)
    (completions : Int) (extra : Option String) (includeUser : Bool)
    (h1 : o'.completionContents (mergedInstructionsModel opts.instructions includeUser extra) =
      o.completionContents (mergedInstructionsModel opts.instructions includeUser extra))
    (h2 : o'.rewriteOutcome = o.rewriteOutcome) :
    requestMessagesModel jsonParse o' opts ctype locale completions extra includeUser =
    requestMessagesModel jsonParse o opts ctype locale completions extra includeUser := by
  unfold requestMessagesModel
  rw [requestMessagesPre_oracle_congr jsonParse o o' opts ctype locale completions extra
    includeUser h1 h2]

/-! ## Claim C3 -/

/-- Claim C3: when scope enforcement is active (conventional mode, scope
preferred, format supporting a scope placeholder) and no first-pass
title is scoped, exactly one retry pass is performed — its request
carries the added hard-requirement instruction and drops the user
instructions — and when the retry results also contain no scoped title
the unfiltered retry results are returned (not the first-pass ones);
the whole computation consults the oracle at no pass beyond those two,
so there is never a second retry. -/
theorem scope_enforcement_single_retry (jsonParse : String → Option JsValue)
    (oracle : GenOracle) (locale : String) (completions : Int) (opts : GenOptions)
    (hscope : opts.conventionalScope = some true)
    (hfmt : supportsConventionalScope opts.conventionalFormat = true) :
    ((requestMessagesModel jsonParse oracle opts .conventional locale completions
        none true).filter
      (fun m => hasConventionalScope m (opts.includeDetails.getD false)) = [] →
     (requestMessagesModel jsonParse oracle opts .conventional locale completions
        (some hardScopeRequirementInstruction) false).filter
      (fun m => hasConventionalScope m (opts.includeDetails.getD false)) = [] →
     generateCommitMessageModel jsonParse oracle locale completions .conventional opts =
       requestMessagesModel jsonParse oracle opts .conventional locale completions
         (some hardScopeRequirementInstruction) false) ∧
    (∀ oracle' : GenOracle,
      oracle'.completionContents (mergedInstructionsModel opts.instructions true none) =
        oracle.completionContents (mergedInstructionsModel opts.instructions true none) →
      oracle'.completionContents (mergedInstructionsModel opts.instructions false
          (some hardScopeRequirementInstruction)) =
        oracle.completionContents (mergedInstructionsModel opts.instructions false
          (some hardScopeRequirementInstruction)) →
      oracle'.rewriteOutcome = oracle.rewriteOutcome →
      generateCommitMessageModel jsonParse oracle' locale completions .conventional opts =
        generateCommitMessageModel jsonParse oracle locale completions .conventional opts) := by
  have henf : (CommitType.conventional = CommitType.conventional &&
      opts.conventionalScope.getD false &&
      supportsConventionalScope opts.conventionalFormat) = true := by
    rw [hscope, hfmt]
    simp [Option.getD]
  constructor
  · intro h1 h2
    simp [generateCommitMessageModel, hscope, hfmt, h1, h2]
  · intro oracle' hp0 hp1 hrw
    simp only [generateCommitMessageModel]
    rw [requestMessagesModel_oracle_congr jsonParse oracle oracle' opts .conventional locale
      completions none true hp0 hrw]
    rw [requestMessagesModel_oracle_congr jsonParse oracle oracle' opts .conventional locale
      completions (some hardScopeRequirementInstruction) false hp1 hrw]

/-- Witness for C3: a concrete oracle whose first pass yields an
unscoped `fix:` title and whose retry pass yields an unscoped `feat:`
title — the unfiltered retry results are returned. -/
theorem scope_enforcement_single_retry_witness :
    generateCommitMessageModel (fun _ => none)
      ⟨fun instr _ => if instr = "" then [some "fix: alpha"] else [some "feat: beta"],
       fun _ => .ok none⟩
      "en" 1 .conventional
      { conventionalScope := some true } =
      ["feat: beta"] := by
  have h := (scope_enforcement_single_retry (fun _ => none)
    ⟨fun instr _ => if instr = "" then [some "fix: alpha"] else [some "feat: beta"],
     fun _ => .ok none⟩
    "en" 1 { conventionalScope := some true } rfl rfl).1 rfl rfl
  rw [h]
  rfl

theorem ne_empty_of_mem_requestMessagesPre {m : String} (jsonParse : String → Option JsValue)
    (oracle : GenOracle) (opts : GenOptions) (ctype : CommitType) (locale : String)
    (completions : Int) (extra : Option String) (includeUser : Bool)
    (hm : m ∈ requestMessagesPre jsonParse oracle opts ctype locale completions extra includeUser) :
    m ≠ "" := by
  simp only [requestMessagesPre] at hm
  exact of_decide_eq_true (List.mem_filter.mp hm).2

/-! ## Claim C7 -/

/-- Claim C7: every sequence returned by `generateCommitMessage` contains
only distinct, non-empty strings, and it is (a scope-filtering of) the
first-occurrence deduplication of the generated message list — each
kept string sits at its first occurrence's position. -/
theorem generate_messages_distinct (jsonParse : String → Option JsValue)
    (oracle : GenOracle) (locale : String) (completions : Int) (ctype : CommitType)
    (opts : GenOptions) :
    (generateCommitMessageModel jsonParse oracle locale completions ctype opts).Nodup ∧
    (∀ m ∈ generateCommitMessageModel jsonParse oracle locale completions ctype opts, m ≠ "") ∧
    (generateCommitMessageModel jsonParse oracle locale completions ctype opts =
        keepFirstOccurrences
          (requestMessagesPre jsonParse oracle opts ctype locale completions none true) ∨
     generateCommitMessageModel jsonParse oracle locale completions ctype opts =
        (keepFirstOccurrences
          (requestMessagesPre jsonParse oracle opts ctype locale completions none true)).filter
          (fun m => hasConventionalScope m (opts.includeDetails.getD false)) ∨
     generateCommitMessageModel jsonParse oracle locale completions ctype opts =
        keepFirstOccurrences
          (requestMessagesPre jsonParse oracle opts ctype locale completions
            (some hardScopeRequirementInstruction) false) ∨
     generateCommitMessageModel jsonParse oracle locale completions ctype opts =
        (keepFirstOccurrences
          (requestMessagesPre jsonParse oracle opts ctype locale completions
            (some hardScopeRequirementInstruction) false)).filter
          (fun m => hasConventionalScope m (opts.includeDetails.getD false))) := by
  have hkf : ∀ (extra : Option String) (iu : Bool),
      requestMessagesModel jsonParse oracle opts ctype locale completions extra iu =
      keepFirstOccurrences
        (requestMessagesPre jsonParse oracle opts ctype locale completions extra iu) :=
    fun _ _ => deduplicateMessages_eq_keepFirst _
  have hcases :
      generateCommitMessageModel jsonParse oracle locale completions ctype opts =
        requestMessagesModel jsonParse oracle opts ctype locale completions none true ∨
      generateCommitMessageModel jsonParse oracle locale completions ctype opts =
        (requestMessagesModel jsonParse oracle opts ctype locale completions none true).filter
          (fun m => hasConventionalScope m (opts.includeDetails.getD false)) ∨
      generateCommitMessageModel jsonParse oracle locale completions ctype opts =
        requestMessagesModel jsonParse oracle opts ctype locale completions
          (some hardScopeRequirementInstruction) false ∨
      generateCommitMessageModel jsonParse oracle locale completions ctype opts =
        (requestMessagesModel jsonParse oracle opts ctype locale completions
          (some hardScopeRequirementInstruction) false).filter
          (fun m => hasConventionalScope m (opts.includeDetails.getD false)) := by
    simp only [generateCommitMessageModel]
    split
    · exact Or.inl rfl
    · split
      · exact Or.inr (Or.inl rfl)
      · split
        · exact Or.inr (Or.inr (Or.inr rfl))
        · exact Or.inr (Or.inr (Or.inl rfl))
  have hnodup : ∀ (extra : Option String) (iu : Bool),
      (requestMessagesModel jsonParse oracle opts ctype locale completions extra iu).Nodup :=
    fun _ _ => nodup_deduplicateMessages _
  have hne : ∀ (extra : Option String) (iu : Bool), ∀ m ∈ requestMessagesModel jsonParse oracle
      opts ctype locale completions extra iu, m ≠ "" :=
    fun extra iu m hm => ne_empty_of_mem_requestMessagesPre jsonParse oracle opts ctype locale
      completions extra iu (mem_of_mem_deduplicateMessages hm)
  refine ⟨?_, ?_, ?_⟩
  · rcases hcases with h | h | h | h <;> rw [h]
    · exact hnodup none true
    · exact (hnodup none true).filter _
    · exact hnodup (some hardScopeRequirementInstruction) false
    · exact (hnodup (some hardScopeRequirementInstruction) false).filter _
  · intro m hm
    rcases hcases with h | h | h | h <;> rw [h] at hm
    · exact hne none true m hm
    · exact hne none true m (List.mem_of_mem_filter hm)
    · exact hne (some hardScopeRequirementInstruction) false m hm
    · exact hne (some hardScopeRequirementInstruction) false m (List.mem_of_mem_filter hm)
  · rcases hcases with h | h | h | h
    · exact Or.inl (by rw [h, hkf])
    · exact Or.inr (Or.inl (by rw [h, hkf]))
    · exact Or.inr (Or.inr (Or.inl (by rw [h, hkf])))
    · exact Or.inr (Or.inr (Or.inr (by rw [h, hkf])))

/-- Witness for C7: a concrete oracle returning a duplicated, partly
blank choice list yields a duplicate-free, blank-free result. -/
theorem generate_messages_distinct_witness :
    generateCommitMessageModel (fun _ => none)
      ⟨fun _ _ => [some "fix: alpha", some "fix: alpha", some "", some "feat: beta"],
       fun _ => .ok none⟩
      "en" 1 .plain {} = ["fix: alpha", "feat: beta"] ∧
    (generateCommitMessageModel (fun _ => none)
      ⟨fun _ _ => [some "fix: alpha", some "fix: alpha", some "", some "feat: beta"],
       fun _ => .ok none⟩
      "en" 1 .plain {}).Nodup ∧
    "fix: alpha" ≠ "" := by
  have hval : generateCommitMessageModel (fun _ => none)
      ⟨fun _ _ => [some "fix: alpha", some "fix: alpha", some "", some "feat: beta"],
       fun _ => .ok none⟩
      "en" 1 .plain {} = ["fix: alpha", "feat: beta"] := rfl
  have hmem : "fix: alpha" ∈ generateCommitMessageModel (fun _ => none)
      ⟨fun _ _ => [some "fix: alpha", some "fix: alpha", some "", some "feat: beta"],
       fun _ => .ok none⟩
      "en" 1 .plain {} := by
    rw [hval]
    exact List.mem_cons_self _ _
  refine ⟨hval, (generate_messages_distinct (fun _ => none)
    ⟨fun _ _ => [some "fix: alpha", some "fix: alpha", some "", some "feat: beta"],
     fun _ => .ok none⟩ "en" 1 .plain {}).1, ?_⟩
  exact (generate_messages_distinct (fun _ => none)
    ⟨fun _ _ => [some "fix: alpha", some "fix: alpha", some "", some "feat: beta"],
     fun _ => .ok none⟩ "en" 1 .plain {}).2.1 "fix: alpha" hmem

/-! ## Head/last and membership lemmas for the sanitizer -/

theorem head?_dropWhile {p : Char → Bool} : ∀ {l : List Char} {c : Char},
    (l.dropWhile p).head? = some c → p c = false := by
  intro l
  induction l with
  | nil => intro c h; simp [List.dropWhile] at h
  | cons a t ih =>
    intro c h
    by_cases ha : p a
    · rw [List.dropWhile_cons_of_pos ha] at h
      exact ih h
    · rw [List.dropWhile_cons_of_neg ha] at h
      have hac : a = c := by simpa using h
      subst hac
      simpa using ha

theorem getLast?_of_suffix : ∀ {l' l : List Char}, l' <:+ l → l' ≠ [] →
    l'.getLast? = l.getLast? := by
  rintro l' l ⟨t, rfl⟩ hne
  rw [List.getLast?_append_of_ne_nil _ hne]

theorem mem_of_mem_dropWhile {p : Char → Bool} {c : Char} {l : List Char}
    (h : c ∈ l.dropWhile p) : c ∈ l :=
  (List.dropWhile_suffix p).subset h

theorem mem_of_mem_trimChars {c : Char} {l : List Char} (h : c ∈ trimChars l) : c ∈ l := by
  unfold trimChars at h
  rw [List.mem_reverse] at h
  have h2 := mem_of_mem_dropWhile h
  rw [List.mem_reverse] at h2
  exact mem_of_mem_dropWhile h2

theorem trimChars_head {l : List Char} {c : Char} (h : (trimChars l).head? = some c) :
    jsWhitespaceB c = false := by
  unfold trimChars at h
  rw [List.head?_reverse] at h
  have hsfx := List.dropWhile_suffix (l := (l.dropWhile jsWhitespaceB).reverse)
    (p := jsWhitespaceB)
  have hne : (l.dropWhile jsWhitespaceB).reverse.dropWhile jsWhitespaceB ≠ [] := by
    intro hnil
    rw [hnil] at h
    exact Option.noConfusion h
  rw [getLast?_of_suffix hsfx hne, List.getLast?_reverse] at h
  exact head?_dropWhile h

theorem trimChars_getLast {l : List Char} {c : Char} (h : (trimChars l).getLast? = some c) :
    jsWhitespaceB c = false := by
  unfold trimChars at h
  rw [List.getLast?_reverse] at h
  exact head?_dropWhile h

theorem splitOnChar_ne_nil (sep : Char) : ∀ (l : List Char), splitOnChar sep l ≠ [] := by
  intro l
  induction l with
  | nil => simp [splitOnChar]
  | cons c rest ih =>
    unfold splitOnChar
    by_cases hc : c = sep
    · simp [hc]
    · simp only [hc, if_false]
      rcases hr : splitOnChar sep rest with _ | ⟨h, t⟩
      · exact absurd hr ih
      · simp

theorem not_sep_mem_splitOnChar (sep : Char) : ∀ (l : List Char) (part : List Char),
    part ∈ splitOnChar sep l → sep ∉ part := by
  intro l
  induction l with
  | nil =>
    intro part hp
    simp [splitOnChar] at hp
    simp [hp]
  | cons c rest ih =>
    intro part hp
    unfold splitOnChar at hp
    by_cases hc : c = sep
    · simp only [hc, if_true] at hp
      rcases List.mem_cons.mp hp with rfl | h2
      · simp
      · exact ih part h2
    · simp only [hc, if_false] at hp
      rcases hr : splitOnChar sep rest with _ | ⟨h, t⟩
      · exact absurd hr (splitOnChar_ne_nil sep rest)
      · rw [hr] at hp
        rcases List.mem_cons.mp hp with rfl | h2
        · intro hmem
          rcases List.mem_cons.mp hmem with rfl | h3
          · exact hc rfl
          · exact ih h (by rw [hr]; exact List.mem_cons_self _ _) h3
        · exact ih part (by rw [hr]; exact List.mem_cons_of_mem _ h2)

theorem matchCI_suffix : ∀ {p l r : List Char}, matchCI p l = some r → r <:+ l := by
  intro p
  induction p with
  | nil =>
    intro l r h
    simp only [matchCI, Option.some.injEq] at h
    exact h ▸ List.suffix_refl l
  | cons a p' ih =>
    intro l r h
    cases l with
    | nil => exact Option.noConfusion h
    | cons c cs =>
      simp only [matchCI] at h
      split at h
      · exact (ih h).trans (List.suffix_cons c cs)
      · exact Option.noConfusion h

theorem stripTitleLabel_suffix (l : List Char) : stripTitleLabel l <:+ l := by
  unfold stripTitleLabel
  rcases hm : matchCI ['t', 'i', 't', 'l', 'e', ':'] l with _ | rest
  · exact List.suffix_refl l
  · exact (List.dropWhile_suffix _).trans (matchCI_suffix hm)

theorem mem_of_mem_stripTitleLabel {c : Char} {l : List Char}
    (h : c ∈ stripTitleLabel l) : c ∈ l :=
  (stripTitleLabel_suffix l).subset h

theorem stripTrailingDot_cases (l : List Char) :
    stripTrailingDot l = l ∨
    (∃ w rest, l.reverse = '.' :: w :: rest ∧ isWordCharB w = true ∧
      stripTrailingDot l = (w :: rest).reverse) := by
  unfold stripTrailingDot
  rcases hr : l.reverse with _ | ⟨c1, tail⟩
  · exact Or.inl rfl
  · rcases tail with _ | ⟨w, rest⟩
    · exact Or.inl rfl
    · dsimp only
      by_cases hcw : (c1 = '.' && isWordCharB w) = true
      · rw [if_pos hcw]
        rcases Bool.and_eq_true_iff.mp hcw with ⟨hc1, hw⟩
        have hc1' : c1 = '.' := of_decide_eq_true hc1
        exact Or.inr ⟨w, rest, by rw [hc1'], hw, rfl⟩
      · rw [if_neg hcw]
        exact Or.inl rfl

theorem isWordCharB_not_ws {c : Char} (h : isWordCharB c = true) :
    jsWhitespaceB c = false := by
  cases hw : jsWhitespaceB c
  · rfl
  · rcases jsWhitespaceB_cases hw with rfl | rfl | rfl | rfl | rfl | rfl <;>
      exact absurd h (by decide)

theorem mem_of_mem_stripTrailingDot {c : Char} {l : List Char}
    (h : c ∈ stripTrailingDot l) : c ∈ l := by
  rcases stripTrailingDot_cases l with heq | ⟨w, rest, hrev, _, heq⟩
  · rwa [heq] at h
  · rw [heq] at h
    rw [← List.reverse_reverse l, hrev]
    rw [List.mem_reverse] at h ⊢
    exact List.mem_cons_of_mem _ h

theorem stripTrailingDot_head {l : List Char} {c : Char}
    (h : (stripTrailingDot l).head? = some c) : l.head? = some c := by
  rcases stripTrailingDot_cases l with heq | ⟨w, rest, hrev, _, heq⟩
  · rwa [heq] at h
  · rw [heq] at h
    have hl : l = (w :: rest).reverse ++ ['.'] := by
      rw [← List.reverse_reverse l, hrev]
      simp
    rw [hl]
    rw [List.head?_append_of_ne_nil]
    · exact h
    · intro hnil
      rw [hnil] at h
      exact Option.noConfusion h

theorem stripTrailingDot_getLast {l : List Char} {c : Char}
    (h : (stripTrailingDot l).getLast? = some c) :
    l.getLast? = some c ∨ (isWordCharB c = true) := by
  rcases stripTrailingDot_cases l with heq | ⟨w, rest, hrev, hw, heq⟩
  · rw [heq] at h
    exact Or.inl h
  · rw [heq] at h
    rw [List.getLast?_reverse] at h
    simp only [List.head?_cons, Option.some.injEq] at h
    exact Or.inr (h ▸ hw)

theorem stripTitleLabel_head {l : List Char} {c : Char}
    (h : (stripTitleLabel l).head? = some c) :
    jsWhitespaceB c = false ∨ l.head? = some c := by
  unfold stripTitleLabel at h
  rcases hm : matchCI ['t', 'i', 't', 'l', 'e', ':'] l with _ | rest
  · rw [hm] at h
    exact Or.inr h
  · rw [hm] at h
    exact Or.inl (head?_dropWhile h)

theorem stripTitleLabel_getLast {l : List Char} {c : Char}
    (h : (stripTitleLabel l).getLast? = some c) : l.getLast? = some c := by
  have hsfx := stripTitleLabel_suffix l
  have hne : stripTitleLabel l ≠ [] := by
    intro hnil
    rw [hnil] at h
    exact Option.noConfusion h
  rw [← getLast?_of_suffix hsfx hne]
  exact h

theorem mem_of_mem_stripWrapQuotes {c : Char} {l : List Char}
    (h : c ∈ stripWrapQuotes l) : c ∈ l := by
  unfold stripWrapQuotes at h
  have step : ∀ (m : List Char), c ∈ (match m.reverse with
      | q :: rest => if isWrapQuote q then rest.reverse else m
      | [] => m) → c ∈ m := by
    intro m hm
    rcases hr : m.reverse with _ | ⟨q, rest⟩
    · rwa [hr] at hm
    · rw [hr] at hm
      dsimp only at hm
      split at hm
      · rw [← List.reverse_reverse m, hr]
        rw [List.mem_reverse] at hm ⊢
        exact List.mem_cons_of_mem _ hm
      · exact hm
  cases l with
  | nil => simpa using step [] (by simpa using h)
  | cons a t =>
    by_cases ha : isWrapQuote a
    · simp only [ha, if_true] at h
      exact List.mem_cons_of_mem _ (step t h)
    · simp only [ha, Bool.false_eq_true, if_false] at h
      exact step (a :: t) h

theorem stripWrapQuotes_head {l : List Char} {c : Char}
    (h : (stripWrapQuotes l).head? = some c) :
    l.head? = some c ∨ (∃ q, l.head? = some q ∧ isWrapQuote q = true) := by
  unfold stripWrapQuotes at h
  have step : ∀ (m : List Char), (match m.reverse with
      | q :: rest => if isWrapQuote q then rest.reverse else m
      | [] => m).head? = some c → m.head? = some c := by
    intro m hm
    rcases hr : m.reverse with _ | ⟨q, rest⟩
    · rwa [hr] at hm
    · rw [hr] at hm
      dsimp only at hm
      split at hm
      · have hme : m = rest.reverse ++ [q] := by
          rw [← List.reverse_reverse m, hr]
          simp
        rw [hme, List.head?_append_of_ne_nil]
        · exact hm
        · intro hnil
          rw [hnil] at hm
          exact Option.noConfusion hm
      · exact hm
  cases l with
  | nil =>
    simp only [if_neg] at h
    have := step [] (by simpa using h)
    exact Or.inl this
  | cons a t =>
    by_cases ha : isWrapQuote a
    · exact Or.inr ⟨a, rfl, ha⟩
    · simp only [ha, Bool.false_eq_true, if_false] at h
      exact Or.inl (step (a :: t) h)

theorem stripWrapQuotes_getLast {l : List Char} {c : Char}
    (h : (stripWrapQuotes l).getLast? = some c) :
    l.getLast? = some c ∨ (∃ q, l.getLast? = some q ∧ isWrapQuote q = true) := by
  unfold stripWrapQuotes at h
  have hl1 : ∀ (m : List Char),
      (match m.reverse with
        | q :: rest => if isWrapQuote q then rest.reverse else m
        | [] => m).getLast? = some c →
      m.getLast? = some c ∨ (∃ q, m.getLast? = some q ∧ isWrapQuote q = true) := by
    intro m hm
    rcases hr : m.reverse with _ | ⟨q, rest⟩
    · rw [hr] at hm
      exact Or.inl hm
    · rw [hr] at hm
      dsimp only at hm
      have hmq : m.getLast? = some q := by
        rw [← List.head?_reverse, hr]
        rfl
      split at hm
      · next hq => exact Or.inr ⟨q, hmq, hq⟩
      · exact Or.inl hm
  cases l with
  | nil =>
    have := hl1 [] (by simpa using h)
    exact this
  | cons a t =>
    by_cases ha : isWrapQuote a
    · simp only [ha, if_true] at h
      rcases hl1 t h with h2 | ⟨q, hq1, hq2⟩
      · cases t with
        | nil => exact absurd h2 (by simp)
        | cons b t' =>
          left
          rw [List.getLast?_cons_cons]
          exact h2
      · cases t with
        | nil => exact absurd hq1 (by simp)
        | cons b t' =>
          right
          exact ⟨q, by rw [List.getLast?_cons_cons]; exact hq1, hq2⟩
    · simp only [ha, Bool.false_eq_true, if_false] at h
      exact hl1 (a :: t) h

theorem sanitizeSimpleFirstLine_no_newline (message : String) :
    '\n' ∉ sanitizeSimpleFirstLine message := by
  unfold sanitizeSimpleFirstLine
  rcases hp : splitOnChar '\n' (trimChars (stripCodeFencesChars message.toList)) with _ | ⟨h, t⟩
  · simp
  · simp only [List.headD_cons]
    exact not_sep_mem_splitOnChar '\n' _ h (by rw [hp]; exact List.mem_cons_self _ _)

theorem sanitizePreQuote_subset {c : Char} {message : String}
    (h : c ∈ sanitizePreQuote message) : c ∈ sanitizeSimpleFirstLine message := by
  unfold sanitizePreQuote at h
  exact mem_of_mem_trimChars
    (mem_of_mem_stripTitleLabel (mem_of_mem_stripTrailingDot h))

theorem sanitizePreQuote_head {message : String} {c : Char}
    (h : (sanitizePreQuote message).head? = some c) : jsWhitespaceB c = false := by
  unfold sanitizePreQuote at h
  have h2 := stripTrailingDot_head h
  rcases stripTitleLabel_head h2 with hws | h3
  · exact hws
  · exact trimChars_head h3

theorem sanitizePreQuote_getLast {message : String} {c : Char}
    (h : (sanitizePreQuote message).getLast? = some c) : jsWhitespaceB c = false := by
  unfold sanitizePreQuote at h
  rcases stripTrailingDot_getLast h with h2 | hword
  · exact trimChars_getLast (stripTitleLabel_getLast h2)
  · exact isWordCharB_not_ws hword

/-! ## Claim C5 -/

/-- An end character allowed by C5's claimed property: neither
whitespace nor a wrapping quote. -/
def cleanEndChar (c : Char) : Bool :=
  !(jsWhitespaceB c || isWrapQuote c)

/-- The property C5 claims of every sanitized simple message: a single
line with no leading or trailing whitespace and no wrapping quote
character at either end. -/
def titleIsSingleCleanLine (s : String) : Bool :=
  (!s.toList.contains '\n') &&
  (match s.toList.head? with
   | some c => cleanEndChar c
   | none => true) &&
  (match s.toList.getLast? with
   | some c => cleanEndChar c
   | none => true)

/-- Counterexample to C5 as stated: a title wrapped in two layers of
quotes keeps a full wrapping quote layer — only one layer is stripped —
so the result still starts and ends with a quote character. -/
theorem sanitizeSimpleMessage_not_always_clean :
    sanitizeSimpleMessage "\x22\x22hi\x22\x22" = "\x22hi\x22" ∧
    titleIsSingleCleanLine (sanitizeSimpleMessage "\x22\x22hi\x22\x22") = false := by
  exact ⟨rfl, rfl⟩

/-- Claim C5 (amended): `sanitize(raw, false, _)` always returns a
single line (no newline character), equal to the trimmed, label- and
stop-stripped first line with one wrapping-quote layer removed; each end
of the result is non-whitespace and non-quote except when stripping that
single quote layer exposed an inner character — i.e. a bad end character
can occur only when the pre-quote-strip stage itself starts
(respectively ends) with a wrapping quote. -/
theorem sanitizeSimpleMessage_single_clean_line (raw : String) :
    ('\n' ∉ (sanitizeSimpleMessage raw).toList) ∧
    ((sanitizeSimpleMessage raw).toList = stripWrapQuotes (sanitizePreQuote raw)) ∧
    (∀ c, (sanitizeSimpleMessage raw).toList.head? = some c →
      cleanEndChar c = true ∨
      (∃ q, (sanitizePreQuote raw).head? = some q ∧ isWrapQuote q = true)) ∧
    (∀ c, (sanitizeSimpleMessage raw).toList.getLast? = some c →
      cleanEndChar c = true ∨
      (∃ q, (sanitizePreQuote raw).getLast? = some q ∧ isWrapQuote q = true)) := by
  have heq : (sanitizeSimpleMessage raw).toList = stripWrapQuotes (sanitizePreQuote raw) := rfl
  refine ⟨?_, heq, ?_, ?_⟩
  · rw [heq]
    intro hmem
    exact sanitizeSimpleFirstLine_no_newline raw
      (sanitizePreQuote_subset (mem_of_mem_stripWrapQuotes hmem))
  · intro c hc
    rw [heq] at hc
    rcases stripWrapQuotes_head hc with h2 | ⟨q, hq1, hq2⟩
    · by_cases hquote : isWrapQuote c
      · exact Or.inr ⟨c, h2, hquote⟩
      · left
        unfold cleanEndChar
        rw [sanitizePreQuote_head h2]
        simp only [Bool.false_or]
        simpa using hquote
    · exact Or.inr ⟨q, hq1, hq2⟩
  · intro c hc
    rw [heq] at hc
    rcases stripWrapQuotes_getLast hc with h2 | ⟨q, hq1, hq2⟩
    · by_cases hquote : isWrapQuote c
      · exact Or.inr ⟨c, h2, hquote⟩
      · left
        unfold cleanEndChar
        rw [sanitizePreQuote_getLast h2]
        simp only [Bool.false_or]
        simpa using hquote
    · exact Or.inr ⟨q, hq1, hq2⟩

/-- Witness for C5 (amended): a labelled, padded raw title sanitizes to
a clean single line with clean ends; a quote-padded raw title exposes
its inner whitespace only because the pre-quote-strip stage was
quote-wrapped. -/
theorem sanitizeSimpleMessage_single_clean_line_witness :
    ('\n' ∉ (sanitizeSimpleMessage "title: Fix the parser.\nsecond line").toList) ∧
    (cleanEndChar 'F' = true ∨
      (∃ q, (sanitizePreQuote "title: Fix the parser.\nsecond line").head? = some q ∧
        isWrapQuote q = true)) ∧
    (cleanEndChar ' ' = true ∨
      (∃ q, (sanitizePreQuote "\x22 hi \x22").head? = some q ∧ isWrapQuote q = true)) := by
  refine ⟨(sanitizeSimpleMessage_single_clean_line "title: Fix the parser.\nsecond line").1,
    (sanitizeSimpleMessage_single_clean_line "title: Fix the parser.\nsecond line").2.2.1 'F' rfl,
    (sanitizeSimpleMessage_single_clean_line "\x22 hi \x22").2.2.1 ' ' rfl⟩

end Aicommits
